import Mathlib

/-!
Verification of the `bsa` repository's v10X archive codec
(`src/bsalib/src/v10x.rs`), shallowly embedded in Lean 4.

Bytes are modelled as `Nat` values; on-disk scalar fields are encoded
little-endian with an explicit `% 256` per byte.  The writer's seekable
sink is a `List Nat` together with the invariant that the cursor sits at
the end between operations (the source's `Positioned::update` seeks back,
rewrites, and returns to the end); backpatching is `writeAt`.

Support crates of the repository (`crate::bin`, `crate::str`,
`crate::hash`, the reader/writer facade types) are not part of the given
sources, so those definitions are modelled from the spec and marked as
such in their doc comments.  Everything in `v10x.rs` itself is translated
directly.
-/

namespace Bsa

/-! ## Byte-level primitives -/

/-- Little-endian encoding of a 16-bit scalar, two bytes. -/
def u16le (n : Nat) : List Nat :=
  [n % 256, n / 256 % 256]

/-- Little-endian encoding of a 32-bit scalar, four bytes. -/
def u32le (n : Nat) : List Nat :=
  [n % 256, n / 256 % 256, n / 256 ^ 2 % 256, n / 256 ^ 3 % 256]

/-- Little-endian encoding of a 64-bit scalar, eight bytes. -/
def u64le (n : Nat) : List Nat :=
  u32le (n % 2 ^ 32) ++ u32le (n / 2 ^ 32)

/-- Value of a little-endian byte list. -/
def leVal (bs : List Nat) : Nat :=
  bs.foldr (fun b acc => b + 256 * acc) 0

/-- Overwrite the bytes of `s` starting at position `p` with `new`,
leaving everything else in place (the model of seeking back and
rewriting a placeholder). -/
def writeAt (s : List Nat) (p : Nat) (new : List Nat) : List Nat :=
  s.take p ++ new ++ s.drop (p + new.length)

/-- Take `k` bytes off the front of a stream, failing on a short read. -/
def parseBytes (k : Nat) (l : List Nat) : Option (List Nat × List Nat) :=
  if k ≤ l.length then some (l.take k, l.drop k) else none

/-- Read one byte. -/
def parseU8 (l : List Nat) : Option (Nat × List Nat) :=
  match l with
  | [] => none
  | b :: r => some (b, r)

/-- Read a little-endian u32. -/
def parseU32 (l : List Nat) : Option (Nat × List Nat) :=
  (parseBytes 4 l).map (fun p => (leVal p.1, p.2))

/-- Read a little-endian u64. -/
def parseU64 (l : List Nat) : Option (Nat × List Nat) :=
  (parseBytes 8 l).map (fun p => (leVal p.1, p.2))

/-! ## String codecs

Modelled from the spec (`crate::str` is not among the given sources).
Strings are byte lists. -/

/-- Modelled from the spec: locale-independent ASCII lowercase of one
byte (the writer converts names via ASCII lowercase). -/
def asciiLower (b : Nat) : Nat :=
  if 65 ≤ b ∧ b ≤ 90 then b + 32 else b

/-- ASCII-lowercase every byte of a name. -/
def lowerStr (s : List Nat) : List Nat :=
  s.map asciiLower

/-- Modelled from the spec: path-separator normalization, every slash
byte becomes a backslash byte. -/
def normSep (b : Nat) : Nat :=
  if b = 47 then 92 else b

/-- Normalize every separator of a name. -/
def normSepStr (s : List Nat) : List Nat :=
  s.map normSep

/-- Modelled from the spec: `BZString::new` validates that the payload
fits the single-byte length (max payload 254 bytes, the stored length
byte also counts the trailing NUL); overlong input is a `BadInput`
error, modelled as `none`. -/
def bzNew (s : List Nat) : Option (List Nat) :=
  if s.length ≤ 254 then some s else none

/-- Modelled from the spec: on-disk form of a BZString — one length
byte `L` (payload length plus the trailing NUL), `L` bytes whose last
byte is NUL. -/
def bzWrite (s : List Nat) : List Nat :=
  (s.length + 1) :: s ++ [0]

/-- On-disk byte count of a BZString. -/
def bzSize (s : List Nat) : Nat :=
  s.length + 2

/-- Modelled from the spec: `BString::from_str` validates that the
payload fits the single-byte length (max 255 bytes). -/
def bNew (s : List Nat) : Option (List Nat) :=
  if s.length ≤ 255 then some s else none

/-- Modelled from the spec: on-disk form of a BString — one length
byte, then the payload, no trailing NUL. -/
def bWrite (s : List Nat) : List Nat :=
  s.length :: s

/-- Modelled from the spec: `ZString::from_str` — a NUL-terminated
string cannot itself contain a NUL byte. -/
def zNew (s : List Nat) : Option (List Nat) :=
  if 0 ∈ s then none else some s

/-- Modelled from the spec: on-disk form of a ZString — the payload
followed by a NUL byte. -/
def zWrite (s : List Nat) : List Nat :=
  s ++ [0]

/-- On-disk byte count of a ZString (the NUL counts). -/
def zSize (s : List Nat) : Nat :=
  s.length + 1

/-- Modelled from the spec: reading a BZString — length byte `L`, then
`L` bytes of which the last must be the NUL terminator; the payload is
everything before it.  A short read or missing terminator is `BadData`,
modelled as `none`. -/
def parseBZString (l : List Nat) : Option (List Nat × List Nat) :=
  match parseU8 l with
  | none => none
  | some (len, r) =>
    match parseBytes len r with
    | none => none
    | some (raw, rest) =>
      if raw.getLast? = some 0 then some (raw.dropLast, rest) else none

/-- Modelled from the spec: reading a ZString — bytes up to and
including the first NUL; a missing terminator is `BadData`. -/
def parseZString : List Nat → Option (List Nat × List Nat)
  | [] => none
  | b :: r =>
    if b = 0 then some ([], r)
    else (parseZString r).map (fun p => (b :: p.1, p.2))

/-- Reading `n` adjacent ZStrings (`read_many`). -/
def parseZStrings : Nat → List Nat → Option (List (List Nat))
  | 0, _ => some []
  | n + 1, l =>
    match parseZString l with
    | none => none
    | some (s, r) => (parseZStrings n r).map (fun ss => s :: ss)

/-! ## Hashing

Modelled from the spec (`crate::hash` is not among the given sources):
two hash functions operating on lowercase ASCII byte strings with `/`
normalized to `\`; the v10X one splits a name into stem and extension
at the last dot, hashes both 32-bit-wise, and packs the two words. -/

/-- Split a name into stem and extension at the last dot byte; the
extension keeps the dot.  A name without a dot has an empty extension. -/
def lastDotSplit (s : List Nat) : List Nat × List Nat :=
  let extRev := s.reverse.takeWhile (fun b => b ≠ 46)
  if extRev.length = s.length then (s, [])
  else (s.take (s.length - extRev.length - 1), s.drop (s.length - extRev.length - 1))

/-- Modelled from the spec: the small table mapping known extensions
(`.kf`, `.nif`, `.dds`, `.wav`, `.adp`) to a nonzero type byte; every
other extension maps to zero. -/
def extTypeByte (ext : List Nat) : Nat :=
  if ext = [46, 107, 102] then 1
  else if ext = [46, 110, 105, 102] then 2
  else if ext = [46, 100, 100, 115] then 3
  else if ext = [46, 119, 97, 118] then 4
  else if ext = [46, 97, 100, 112] then 5
  else 0

/-- One step of the rolling polynomial used by both 32-bit halves. -/
def hashStep (h b : Nat) : Nat :=
  (h * 0x1003F + b) % 2 ^ 32

/-- Modelled from the spec: `hash_v10x` — lowercase and
separator-normalize the name, split at the last dot, compute a 32-bit
hash over the stem (seed from last byte, length and first byte, then
the rolling polynomial over the intermediate bytes), fold the type byte
of a known extension into the high nibble, compute a 32-bit rolling
hash over the extension, and combine the two words as
`(hash2 <<< 32) ||| hash1`. -/
def stemHash (stem ext : List Nat) : Nat :=
  (((stem.drop 1).dropLast).foldl hashStep
      (if stem = [] then 0
       else (stem.getLastD 0 ^^^ (stem.length <<< 16) ^^^ (stem.headD 0 <<< 24)) % 2 ^ 32) ^^^
    ((extTypeByte ext % 16) <<< 28)) % 2 ^ 32

def extHash (ext : List Nat) : Nat :=
  ext.foldl hashStep 0

def hashV10X (name : List Nat) : Nat :=
  (extHash (lastDotSplit (normSepStr (lowerStr name))).2 <<< 32) |||
    stemHash (lastDotSplit (normSepStr (lowerStr name))).1
      (lastDotSplit (normSepStr (lowerStr name))).2

/-! ## Version-parametric variant data

`BsaReaderV10X` / `BsaWriterV10X` are generic over a `Versioned` codec
type `T`, a flag type `AF : ToArchiveBitFlags` and a raw
directory-record layout `RDR`.  A `Variant` bundles the three:
the numeric version, the valid-flag mask backing
`BitFlags::from_bits_truncate`, whether the raw directory record
carries the two v105 padding words, the optional `EmbedFileNames` flag
bit, and the compression codec (an abstract byte-list function; zlib
and LZ4 are external crates).  The flag bit positions are the
archive-flag bit map of the spec. -/

/-- Archive-flag bit: `IncludeDirectoryNames`. -/
def includesDirNames : Nat := 0x1

/-- Archive-flag bit: `IncludeFileNames`. -/
def includesFileNames : Nat := 0x2

/-- Archive-flag bit: `CompressedArchive` (compressed by default). -/
def isCompressedByDefault : Nat := 0x4

/-- One v10X variant instantiation of the generic codec. -/
structure Variant where
  version : Nat
  flagMask : Nat
  rdrPad : Bool
  embedFlag : Option Nat
  compress : List Nat → List Nat

/-- The fixed 28-byte POD header that sits at offset 8, directly after
magic and version. -/
structure RawHeader where
  offset : Nat
  archiveFlags : Nat
  dirCount : Nat
  fileCount : Nat
  totalDirNameLength : Nat
  totalFileNameLength : Nat
  fileFlags : Nat
  padding : Nat
deriving DecidableEq, Repr

/-- `HeaderV10X`, the decoded header: flag fields have been passed
through the variant's bit tables. -/
structure HeaderV10X where
  offset : Nat
  archiveFlags : Nat
  dirCount : Nat
  fileCount : Nat
  totalDirNameLength : Nat
  totalFileNameLength : Nat
  fileFlags : Nat
  padding : Nat
deriving DecidableEq, Repr

/-- `From<&RawHeader> for HeaderV10X`: decode both flag fields through
`from_bits_truncate` (drop unknown bits). -/
def headerFromRaw (V : Variant) (r : RawHeader) : HeaderV10X :=
  { offset := r.offset
    archiveFlags := r.archiveFlags &&& V.flagMask
    dirCount := r.dirCount
    fileCount := r.fileCount
    totalDirNameLength := r.totalDirNameLength
    totalFileNameLength := r.totalFileNameLength
    fileFlags := r.fileFlags &&& 0x1FF
    padding := r.padding }

/-- `From<&HeaderV10X> for RawHeader`: re-encode the flag bits. -/
def headerToRaw (h : HeaderV10X) : RawHeader :=
  { offset := h.offset
    archiveFlags := h.archiveFlags
    dirCount := h.dirCount
    fileCount := h.fileCount
    totalDirNameLength := h.totalDirNameLength
    totalFileNameLength := h.totalFileNameLength
    fileFlags := h.fileFlags
    padding := h.padding }

/-- `BitFlags::contains` on the decoded archive-flag field. -/
def HeaderV10X.has (h : HeaderV10X) (f : Nat) : Bool :=
  h.archiveFlags &&& f == f

/-- `has_any` over the optional `EmbedFileNames` flag of the variant. -/
def HeaderV10X.hasEmbed (h : HeaderV10X) (V : Variant) : Bool :=
  match V.embedFlag with
  | none => false
  | some f => h.has f

/-- `effective_total_dir_name_len`: `total_dir_name_length` does not
include the per-name size byte, so add one per directory. -/
def HeaderV10X.effectiveTotalDirNameLen (h : HeaderV10X) : Nat :=
  h.totalDirNameLength + h.dirCount

/-- `HeaderV10X::default()`: a zeroed raw header with
`offset = size_of::<(MagicNumber, u32, RawHeader)>() = 36`. -/
def defaultHeader : HeaderV10X :=
  { offset := 36, archiveFlags := 0, dirCount := 0, fileCount := 0
    totalDirNameLength := 0, totalFileNameLength := 0, fileFlags := 0, padding := 0 }

/-- On-disk bytes of the raw header: six little-endian u32 then two
little-endian u16, no padding (POD reinterpretation, modelled from the
spec's binary-primitive description). -/
def rawHeaderBytes (r : RawHeader) : List Nat :=
  u32le r.offset ++ u32le r.archiveFlags ++ u32le r.dirCount ++ u32le r.fileCount ++
    u32le r.totalDirNameLength ++ u32le r.totalFileNameLength ++
    u16le r.fileFlags ++ u16le r.padding

/-- Parse the raw header from a byte stream. -/
def parseRawHeader (l : List Nat) : Option RawHeader :=
  match parseU32 l with
  | none => none
  | some (offset, l1) =>
  match parseU32 l1 with
  | none => none
  | some (archiveFlags, l2) =>
  match parseU32 l2 with
  | none => none
  | some (dirCount, l3) =>
  match parseU32 l3 with
  | none => none
  | some (fileCount, l4) =>
  match parseU32 l4 with
  | none => none
  | some (tdnl, l5) =>
  match parseU32 l5 with
  | none => none
  | some (tfnl, l6) =>
  match parseBytes 2 l6 with
  | none => none
  | some (ff, l7) =>
  match parseBytes 2 l7 with
  | none => none
  | some (pad, _) =>
    some { offset := offset, archiveFlags := archiveFlags, dirCount := dirCount,
           fileCount := fileCount, totalDirNameLength := tdnl,
           totalFileNameLength := tfnl, fileFlags := leVal ff, padding := leVal pad }

/-- `HeaderV10X::write_fixed`: seek to the fixed position 8 and write
the raw header bytes there. -/
def writeFixedHeader (h : HeaderV10X) (s : List Nat) : List Nat :=
  writeAt s 8 (rawHeaderBytes (headerToRaw h))

/-- `HeaderV10X::read_fixed`: read the raw header at position 8, then
decode it through the variant's flag tables. -/
def readFixedHeader (V : Variant) (bs : List Nat) : Option HeaderV10X :=
  (parseRawHeader (bs.drop 8)).map (headerFromRaw V)

/-! ## Records -/

/-- The variant-independent directory record. -/
structure DirRecord where
  nameHash : Nat
  fileCount : Nat
  offset : Nat
deriving DecidableEq, Repr

/-- A file record: 64-bit hash, 32-bit size (bit 30 is the
compression-override flag), 32-bit absolute offset. -/
structure FileRecord where
  nameHash : Nat
  size : Nat
  offset : Nat
deriving DecidableEq, Repr

/-- `FileRecord::is_compression_bit_set`. -/
def FileRecord.isCompressionBitSet (f : FileRecord) : Bool :=
  f.size &&& 0x40000000 == 0x40000000

/-- `FileRecord::real_size`: mask the size with
`0xffffffff ^ 0x40000000`. -/
def FileRecord.realSize (f : FileRecord) : Nat :=
  f.size &&& (0xffffffff ^^^ 0x40000000)

/-- On-disk bytes of a file record. -/
def frWrite (f : FileRecord) : List Nat :=
  u64le f.nameHash ++ u32le f.size ++ u32le f.offset

/-- Parse one file record. -/
def parseFileRecord (l : List Nat) : Option (FileRecord × List Nat) :=
  match parseU64 l with
  | none => none
  | some (h, l1) =>
  match parseU32 l1 with
  | none => none
  | some (sz, l2) =>
  match parseU32 l2 with
  | none => none
  | some (off, l3) => some ({ nameHash := h, size := sz, offset := off }, l3)

/-- `read_bin_many` for file records. -/
def parseFileRecords : Nat → List Nat → Option (List FileRecord × List Nat)
  | 0, l => some ([], l)
  | n + 1, l =>
    match parseFileRecord l with
    | none => none
    | some (f, r) => (parseFileRecords n r).map (fun p => (f :: p.1, p.2))

/-- On-disk bytes of the variant's raw directory record (`RDR`): v105
adds a 4-byte padding word on each side of `offset`. -/
def rdrWrite (V : Variant) (r : DirRecord) : List Nat :=
  if V.rdrPad then
    u64le r.nameHash ++ u32le r.fileCount ++ u32le 0 ++ u32le r.offset ++ u32le 0
  else
    u64le r.nameHash ++ u32le r.fileCount ++ u32le r.offset

/-- `size_of::<RDR>()`. -/
def rdrSize (V : Variant) : Nat :=
  if V.rdrPad then 24 else 16

/-- Parse one raw directory record and convert it to `DirRecord`
(dropping the padding words). -/
def parseRDR (V : Variant) (l : List Nat) : Option (DirRecord × List Nat) :=
  match parseU64 l with
  | none => none
  | some (h, l1) =>
  match parseU32 l1 with
  | none => none
  | some (fc, l2) =>
  match (if V.rdrPad then (parseU32 l2).map Prod.snd else some l2) with
  | none => none
  | some l3 =>
  match parseU32 l3 with
  | none => none
  | some (off, l4) =>
  match (if V.rdrPad then (parseU32 l4).map Prod.snd else some l4) with
  | none => none
  | some l5 => some ({ nameHash := h, fileCount := fc, offset := off }, l5)

/-- `read_bin_many` for raw directory records. -/
def parseRDRs (V : Variant) : Nat → List Nat → Option (List DirRecord × List Nat)
  | 0, l => some ([], l)
  | n + 1, l =>
    match parseRDR V l with
    | none => none
    | some (d, r) => (parseRDRs V n r).map (fun p => (d :: p.1, p.2))

/-- `DirContentRecord`: optional BZString directory name plus the
file-record list. -/
structure DirContentRecord where
  name : Option (List Nat)
  files : List FileRecord
deriving DecidableEq, Repr

/-- `Writable for DirContentRecord`: the optional name then the
records. -/
def dcrWrite (c : DirContentRecord) : List Nat :=
  (match c.name with
   | some s => bzWrite s
   | none => []) ++ (c.files.map frWrite).flatten

/-- `DirContentRecord::read_with_param`: the name is present iff the
caller's `has_name` parameter says so, then `file_count` records. -/
def parseDirContentRecord (hasName : Bool) (count : Nat) (l : List Nat) :
    Option DirContentRecord :=
  match (if hasName then (parseBZString l).map (fun p => (some p.1, p.2))
         else some (none, l)) with
  | none => none
  | some (name, l1) =>
    (parseFileRecords count l1).map (fun p => { name := name, files := p.1 })

/-! ## Facade types

Modelled from the spec (`crate::read` / `crate::write` are not among
the given sources): the uniform tree view and the writer's input
sources. -/

/-- Modelled from the spec: a listed file entry —
`FileEntry{ hash, optional name, compressed, offset, size }`. -/
structure BsaFile where
  hash : Nat
  name : Option (List Nat)
  compressed : Bool
  offset : Nat
  size : Nat
deriving DecidableEq, Repr

/-- Modelled from the spec: a listed directory entry —
`DirEntry{ hash, optional name, files }`. -/
structure BsaDir where
  hash : Nat
  name : Option (List Nat)
  files : List BsaFile
deriving DecidableEq, Repr

/-- Modelled from the spec: a writer input file — logical name, data
provider (a byte list here), optional per-file compression override. -/
structure BsaFileSource where
  name : List Nat
  compressed : Option Bool
  data : List Nat
deriving DecidableEq, Repr

/-- Modelled from the spec: a writer input directory. -/
structure BsaDirSource where
  name : List Nat
  files : List BsaFileSource
deriving DecidableEq, Repr

/-- `BsaWriterOptionsV10X`: the archive flags and file flags to emit. -/
structure BsaWriterOptionsV10X where
  archiveFlags : Nat
  fileFlags : Nat
deriving DecidableEq, Repr

/-- `BitFlags::contains` on the options. -/
def BsaWriterOptionsV10X.has (o : BsaWriterOptionsV10X) (f : Nat) : Bool :=
  o.archiveFlags &&& f == f

/-- `has_any` over the optional `EmbedFileNames` flag. -/
def BsaWriterOptionsV10X.hasEmbed (o : BsaWriterOptionsV10X) (V : Variant) : Bool :=
  match V.embedFlag with
  | none => false
  | some f => o.has f

/-- `BsaWriterOptionsV10X::default()`: `IncludeFileNames` and
`IncludeDirectoryNames` set, nothing else. -/
def defaultOptions : BsaWriterOptionsV10X :=
  { archiveFlags := includesFileNames ||| includesDirNames, fileFlags := 0 }

/-- `From<BsaWriterOptionsV10X> for HeaderV10X`: the default header
with the options' flags installed. -/
def headerFromOptions (o : BsaWriterOptionsV10X) : HeaderV10X :=
  { defaultHeader with archiveFlags := o.archiveFlags, fileFlags := o.fileFlags }

/-! ## Writer

`BsaWriterV10X`.  The seekable sink is a byte list whose cursor sits at
its end between operations; `Positioned` records the position a
placeholder was written at, and its `update` (modelled from the spec's
binary-primitive description) seeks back, rewrites the same number of
bytes, and returns to the end — `writeAt`. -/

/-- A value written at a remembered sink position. -/
structure Positioned (α : Type) where
  position : Nat
  data : α

/-- The magic number `BSA\0`. -/
def magicBytes : List Nat := [0x42, 0x53, 0x41, 0x00]

/-- `write_version`: magic plus the variant's numeric version. -/
def writeVersion (V : Variant) (s : List Nat) : List Nat :=
  s ++ magicBytes ++ u32le V.version

/-- The collected lowercase file names and their total on-disk size. -/
structure FileNames where
  size : Nat
  values : List (List Nat)

/-- The header-count updates of one `write_header` loop iteration:
bump `dir_count` and `file_count`, and account the directory name
length when `IncludeDirectoryNames` is set. -/
def bumpHeader (o : BsaWriterOptionsV10X) (h : HeaderV10X) (dir : BsaDirSource) :
    HeaderV10X :=
  { h with dirCount := h.dirCount + 1
           fileCount := h.fileCount + dir.files.length
           totalDirNameLength := h.totalDirNameLength +
             (if o.has includesDirNames then dir.name.length + 1 else 0) }

/-- The lowercase ZString file names of one directory, pushed in order
(`ZString::from_str(&file.name.to_lowercase())?` per file). -/
def zNamesOf : List BsaFileSource → Option (List (List Nat))
  | [] => some []
  | f :: t =>
    match zNew (lowerStr f.name) with
    | none => none
    | some n => (zNamesOf t).map (fun ns => n :: ns)

/-- One iteration of `write_header`'s loop over the input directories:
update the header counts and collect the lowercase ZString file names
when `IncludeFileNames` is set. -/
def headerAccDir (o : BsaWriterOptionsV10X) (acc : HeaderV10X × List (List Nat))
    (dir : BsaDirSource) : Option (HeaderV10X × List (List Nat)) :=
  match (if o.has includesFileNames then zNamesOf dir.files else some []) with
  | none => none
  | some ns => some (bumpHeader o acc.1 dir, acc.2 ++ ns)

/-- `write_header`: scan the input once to accumulate the counts and
name lengths, set `total_file_name_length` to the summed ZString sizes,
write the header at its fixed position, and hand back the collected
file names.  (The header the source constructs locally is also
returned, so that its final field values are observable.) -/
def writeHeader (o : BsaWriterOptionsV10X) (dirs : List BsaDirSource) (s : List Nat) :
    Option (HeaderV10X × FileNames × List Nat) :=
  match dirs.foldlM (headerAccDir o) (headerFromOptions o, []) with
  | none => none
  | some (h, names) =>
    let tfnl := (names.map zSize).sum
    let h2 := { h with totalFileNameLength := tfnl }
    some (h2, { size := tfnl, values := names }, writeFixedHeader h2 s)

/-- `write_dir_record`: a placeholder directory record with the name
hash and file count filled in and `offset` zeroed, remembered at the
current sink position. -/
def writeDirRecord (V : Variant) (dir : BsaDirSource) (s : List Nat) :
    Positioned DirRecord × List Nat :=
  let r : DirRecord :=
    { nameHash := hashV10X dir.name, fileCount := dir.files.length, offset := 0 }
  ({ position := s.length, data := r }, s ++ rdrWrite V r)

/-- `write_dir_records`: one placeholder per input directory. -/
def writeDirRecords (V : Variant) (dirs : List BsaDirSource) (s : List Nat) :
    List (Positioned DirRecord) × List Nat :=
  dirs.foldl
    (fun acc dir =>
      let p := writeDirRecord V dir acc.2
      (acc.1 ++ [p.1], p.2))
    ([], s)

/-- `write_dir_content_record`: the optional lowercase BZString name
(present iff `IncludeDirectoryNames`), then one placeholder file record
per file whose `size` is initialized to `0x40000000` exactly when the
file's override asks for the opposite of the archive default. -/
def writeDirContentRecord (_V : Variant) (o : BsaWriterOptionsV10X)
    (dir : BsaDirSource) (s : List Nat) :
    Option (Positioned DirContentRecord × List Nat) :=
  match (if o.has includesDirNames then (bzNew (lowerStr dir.name)).map some
         else some none) with
  | none => none
  | some name =>
    let files := dir.files.map (fun file =>
      ({ nameHash := hashV10X file.name
         size := if file.compressed == some (!o.has isCompressedByDefault)
                 then 0x40000000 else 0
         offset := 0 } : FileRecord))
    let c : DirContentRecord := { name := name, files := files }
    some ({ position := s.length, data := c }, s ++ dcrWrite c)

/-- `write_dir_content_records`: write each directory's content block,
then backpatch the matching directory record's `offset` to the block's
sink position plus `total_file_name_length`. -/
def writeDirContentRecords (V : Variant) (o : BsaWriterOptionsV10X)
    (dirs : List BsaDirSource) (pdrs : List (Positioned DirRecord)) (tfnl : Nat)
    (s : List Nat) : Option (List (Positioned DirContentRecord) × List Nat) :=
  (dirs.zip pdrs).foldlM
    (fun acc pair =>
      match writeDirContentRecord V o pair.1 acc.2 with
      | none => none
      | some (fcr, s1) =>
        let dr := { pair.2.data with offset := (fcr.position + tfnl) % 2 ^ 32 }
        some (acc.1 ++ [fcr], writeAt s1 pair.2.position (rdrWrite V dr)))
    ([], s)

/-- `write_embeded_file_name`: the full `dir\file` path with `/`
replaced by `\`, as a BString. -/
def writeEmbededFileName (dirName fileName : List Nat) (s : List Nat) :
    Option (List Nat) :=
  match bNew (normSepStr dirName ++ [92] ++ normSepStr fileName) with
  | none => none
  | some p => some (s ++ bWrite p)

/-- `write_file_content`: optionally embed the file name, then either
write a 4-byte placeholder, run the codec, and backpatch the
uncompressed size — returning the distance from the placeholder to the
sink end — or copy the raw bytes, returning their count.  The file is
compressed iff its override says so, defaulting to the archive flag. -/
def writeFileContent (V : Variant) (o : BsaWriterOptionsV10X)
    (dir : BsaDirSource) (file : BsaFileSource) (s : List Nat) :
    Option (Nat × List Nat) :=
  match (if o.hasEmbed V then writeEmbededFileName dir.name file.name s
         else some s) with
  | none => none
  | some s1 =>
    if file.compressed.getD (o.has isCompressedByDefault) then
      let posSize := s1.length
      let s3 := (s1 ++ u32le 0) ++ V.compress file.data
      let s4 := writeAt s3 posSize (u32le file.data.length)
      some (s4.length - posSize, s4)
    else
      some (file.data.length, s1 ++ file.data)

/-- The inner loop of `write_file_contents` for one directory: set each
placeholder record's `offset` to the current sink position, write the
file's content, and OR the returned byte count (as u32) into the
record's `size`. -/
def writeDirFiles (V : Variant) (o : BsaWriterOptionsV10X) (dir : BsaDirSource)
    (pairs : List (BsaFileSource × FileRecord)) (s : List Nat) :
    Option (List FileRecord × List Nat) :=
  pairs.foldlM
    (fun acc pair =>
      match writeFileContent V o dir pair.1 acc.2 with
      | none => none
      | some (cnt, s2) =>
        let fr := { pair.2 with offset := acc.2.length % 2 ^ 32,
                                size := pair.2.size ||| cnt % 2 ^ 32 }
        some (acc.1 ++ [fr], s2))
    ([], s)

/-- `write_file_contents`: for every directory, write its files' data
blocks while filling in the placeholder records, then backpatch the
directory's content block.  The updated content records are returned to
model the source's in-place mutation. -/
def writeFileContents (V : Variant) (o : BsaWriterOptionsV10X)
    (dirs : List BsaDirSource) (pfcrs : List (Positioned DirContentRecord))
    (s : List Nat) : Option (List (Positioned DirContentRecord) × List Nat) :=
  (dirs.zip pfcrs).foldlM
    (fun acc pair =>
      match writeDirFiles V o pair.1 (pair.1.files.zip pair.2.data.files) acc.2 with
      | none => none
      | some (files2, s2) =>
        let c2 := { pair.2.data with files := files2 }
        some (acc.1 ++ [(⟨pair.2.position, c2⟩ : Positioned DirContentRecord)],
              writeAt s2 pair.2.position (dcrWrite c2)))
    ([], s)

/-- `write_bsa`: version, header, directory-record placeholders,
content blocks (patching the directory records), the file-name pool,
and the file data blocks (patching the content blocks). -/
def writeBsa (V : Variant) (o : BsaWriterOptionsV10X) (dirs : List BsaDirSource) :
    Option (List Nat) :=
  let s1 := writeVersion V []
  match writeHeader o dirs s1 with
  | none => none
  | some (_, fileNames, s2) =>
    let p := writeDirRecords V dirs s2
    match writeDirContentRecords V o dirs p.1 fileNames.size p.2 with
    | none => none
    | some (pfcrs, s4) =>
      let s5 := s4 ++ (fileNames.values.map zWrite).flatten
      match writeFileContents V o dirs pfcrs s5 with
      | none => none
      | some (_, s6) => some s6

/-! ## Reader

`BsaReaderV10X`.  The underlying byte source is the archive's byte
list; a seek to an absolute position is `List.drop`. -/

/-- `offset_after_header`:
`size_of::<(MagicNumber, Version10X, RawHeader)>()`. -/
def offsetAfterHeader : Nat := 36

/-- `offset_file_names`: past the directory records, the directory
names (iff `IncludeDirectoryNames`) and the file-record blocks. -/
def offsetFileNames (V : Variant) (h : HeaderV10X) : Nat :=
  offsetAfterHeader + rdrSize V * h.dirCount +
    (if h.has includesDirNames then h.effectiveTotalDirNameLen else 0) +
    h.fileCount * 16

/-- `read_file_names`: seek to the name pool and, iff
`IncludeFileNames` is set, read `file_count` ZStrings; each is keyed by
its v10X hash. -/
def readFileNames (V : Variant) (h : HeaderV10X) (bs : List Nat) :
    Option (List (Nat × List Nat)) :=
  if h.has includesFileNames then
    (parseZStrings h.fileCount (bs.drop (offsetFileNames V h))).map
      (fun ns => ns.map (fun n => (hashV10X n, n)))
  else some []

/-- `HashMap::get` over the collected name entries: with collisions the
last inserted entry wins. -/
def mapGet (m : List (Nat × List Nat)) (k : Nat) : Option (List Nat) :=
  (m.reverse.find? (fun p => p.1 == k)).map Prod.snd

/-- `to_file`: the effective compressed-ness is the archive default
XOR-ed with the record's bit-30 override; name by hash lookup; size is
`real_size`. -/
def toFile (h : HeaderV10X) (fileNames : List (Nat × List Nat)) (f : FileRecord) :
    BsaFile :=
  { hash := f.nameHash
    name := mapGet fileNames f.nameHash
    compressed := if h.has isCompressedByDefault then !f.isCompressionBitSet
                  else f.isCompressionBitSet
    offset := f.offset
    size := f.realSize }

/-- `read_dir`: seek to `dir.offset - total_file_name_length` and read
the directory-content record.  Whether a directory name is present is
decided — exactly as in the source — by the `IncludeFileNames` flag
(`let has_dir_name = self.header.has(AF::includes_file_names())`). -/
def readDir (_V : Variant) (h : HeaderV10X) (fileNames : List (Nat × List Nat))
    (bs : List Nat) (dir : DirRecord) : Option BsaDir :=
  let hasDirName := h.has includesFileNames
  match parseDirContentRecord hasDirName dir.fileCount
      (bs.drop (dir.offset - h.totalFileNameLength)) with
  | none => none
  | some c =>
    some { hash := dir.nameHash
           name := c.name
           files := c.files.map (toFile h fileNames) }

/-- `read_bsa` followed by `list`: read the fixed header, the directory
records, the file-name pool, then every directory's content block. -/
def list (V : Variant) (bs : List Nat) : Option (List BsaDir) :=
  match readFixedHeader V bs with
  | none => none
  | some h =>
  match parseRDRs V h.dirCount (bs.drop offsetAfterHeader) with
  | none => none
  | some (rdrs, _) =>
  match readFileNames V h bs with
  | none => none
  | some fileNames => rdrs.mapM (readDir V h fileNames bs)

/-- What `extract` hands to the codec or to `copy`: where the payload
starts after the skips, the `take` limit put on the sub-reader, and
which branch ran. -/
structure ExtractPlan where
  codecStart : Nat
  takeLimit : Nat
  viaCodec : Bool
deriving DecidableEq, Repr

/-- `extract`: seek to `file.offset`; when the archive embeds file
names, read the one-byte length and skip the name; when the file is
compressed, skip the 4-byte uncompressed-size field and hand the codec
a sub-reader limited to `file.size` bytes, otherwise copy a sub-reader
limited to `file.size` bytes straight to the sink. -/
def extract (V : Variant) (h : HeaderV10X) (file : BsaFile) (bs : List Nat) :
    Option ExtractPlan :=
  match (if h.hasEmbed V then
           (parseU8 (bs.drop file.offset)).map (fun p => file.offset + 1 + p.1)
         else some file.offset) with
  | none => none
  | some pos =>
    if file.compressed then
      some { codecStart := pos + 4, takeLimit := file.size, viaCodec := true }
    else
      some { codecStart := pos, takeLimit := file.size, viaCodec := false }

/-- The bytes actually available to the codec or copy under the plan's
`take` limit. -/
def extractInput (p : ExtractPlan) (bs : List Nat) : List Nat :=
  (bs.drop p.codecStart).take p.takeLimit

/-! ## Closed-form layout

Support definitions describing the archive the writer produces, used
to state and prove the layout lemmas; they are derived views, not part
of the embedding. -/

/-- The placeholder directory record of Pass A. -/
def placeDR (dir : BsaDirSource) : DirRecord :=
  { nameHash := hashV10X dir.name, fileCount := dir.files.length, offset := 0 }

/-- The Pass-A placeholder bytes of a directory-record list. -/
def phBytes (V : Variant) (dirs : List BsaDirSource) : List Nat :=
  (dirs.map (fun d => rdrWrite V (placeDR d))).flatten

/-- The placeholder file record of Pass B: `size` starts at
`0x40000000` exactly when the per-file override differs from the
archive default. -/
def placeFR (o : BsaWriterOptionsV10X) (file : BsaFileSource) : FileRecord :=
  { nameHash := hashV10X file.name
    size := if file.compressed == some (!o.has isCompressedByDefault)
            then 0x40000000 else 0
    offset := 0 }

/-- The Pass-B content record of a directory. -/
def contentOf (o : BsaWriterOptionsV10X) (dir : BsaDirSource) : DirContentRecord :=
  { name := if o.has includesDirNames then some (lowerStr dir.name) else none
    files := dir.files.map (placeFR o) }

/-- The Pass-B content-block bytes of a directory list. -/
def blocksOf (o : BsaWriterOptionsV10X) (dirs : List BsaDirSource) : List Nat :=
  (dirs.map (fun d => dcrWrite (contentOf o d))).flatten

/-- The content records together with their sink positions, starting
at `base`. -/
def pfcrsOf (o : BsaWriterOptionsV10X) (dirs : List BsaDirSource) (base : Nat) :
    List (Positioned DirContentRecord) :=
  match dirs with
  | [] => []
  | d :: t =>
    ⟨base, contentOf o d⟩ :: pfcrsOf o t (base + (dcrWrite (contentOf o d)).length)

/-- The backpatched directory-record bytes: each record's `offset` is
its content block's position (blocks start at `base`) plus
`total_file_name_length`. -/
def finalDRsBytes (V : Variant) (o : BsaWriterOptionsV10X) (tfnl : Nat)
    (dirs : List BsaDirSource) (base : Nat) : List Nat :=
  match dirs with
  | [] => []
  | d :: t =>
    rdrWrite V { placeDR d with offset := (base + tfnl) % 2 ^ 32 } ++
      finalDRsBytes V o tfnl t (base + (dcrWrite (contentOf o d)).length)

/-- Whether a file is effectively compressed: its override, defaulting
to the archive flag. -/
def effComp (o : BsaWriterOptionsV10X) (file : BsaFileSource) : Bool :=
  file.compressed.getD (o.has isCompressedByDefault)

/-- The embedded-name bytes preceding a file's data block, when
`EmbedFileNames` is set. -/
def embedBytes (V : Variant) (o : BsaWriterOptionsV10X) (dir : BsaDirSource)
    (file : BsaFileSource) : List Nat :=
  if o.hasEmbed V then bWrite (normSepStr dir.name ++ [92] ++ normSepStr file.name)
  else []

/-- The byte count `write_file_content` reports: the 4-byte
uncompressed-size prefix plus the codec output when compressed, the
raw data size otherwise — the embedded name is not counted. -/
def cntOf (V : Variant) (o : BsaWriterOptionsV10X) (file : BsaFileSource) : Nat :=
  if effComp o file then 4 + (V.compress file.data).length else file.data.length

/-- A file's full data block: optional embedded name, then either the
backpatched size prefix and codec output or the raw bytes. -/
def dataBlockOf (V : Variant) (o : BsaWriterOptionsV10X) (dir : BsaDirSource)
    (file : BsaFileSource) : List Nat :=
  embedBytes V o dir file ++
    (if effComp o file then u32le file.data.length ++ V.compress file.data
     else file.data)

/-- The Pass-C final file records of one directory, data blocks
starting at `pos`. -/
def finalFRs (V : Variant) (o : BsaWriterOptionsV10X) (dir : BsaDirSource)
    (files : List BsaFileSource) (pos : Nat) : List FileRecord :=
  match files with
  | [] => []
  | f :: t =>
    { placeFR o f with offset := pos % 2 ^ 32,
                       size := (placeFR o f).size ||| cntOf V o f % 2 ^ 32 } ::
      finalFRs V o dir t (pos + (dataBlockOf V o dir f).length)

/-- The concatenated data blocks of one directory. -/
def dirDataBytes (V : Variant) (o : BsaWriterOptionsV10X) (dir : BsaDirSource) :
    List Nat :=
  (dir.files.map (dataBlockOf V o dir)).flatten

/-- The Pass-C final content record of one directory. -/
def finalContentOf (V : Variant) (o : BsaWriterOptionsV10X) (dir : BsaDirSource)
    (pos : Nat) : DirContentRecord :=
  { name := if o.has includesDirNames then some (lowerStr dir.name) else none
    files := finalFRs V o dir dir.files pos }

/-- The backpatched content-block bytes, with the data region starting
at `dataPos`. -/
def finalBlocksBytes (V : Variant) (o : BsaWriterOptionsV10X)
    (dirs : List BsaDirSource) (dataPos : Nat) : List Nat :=
  match dirs with
  | [] => []
  | d :: t =>
    dcrWrite (finalContentOf V o d dataPos) ++
      finalBlocksBytes V o t (dataPos + (dirDataBytes V o d).length)

/-- The final content records with positions, blocks at `base` and
data at `dataPos`. -/
def finalPfcrs (V : Variant) (o : BsaWriterOptionsV10X) (dirs : List BsaDirSource)
    (base dataPos : Nat) : List (Positioned DirContentRecord) :=
  match dirs with
  | [] => []
  | d :: t =>
    ⟨base, finalContentOf V o d dataPos⟩ ::
      finalPfcrs V o t (base + (dcrWrite (contentOf o d)).length)
        (dataPos + (dirDataBytes V o d).length)

/-- All data blocks of the archive. -/
def allDataBytes (V : Variant) (o : BsaWriterOptionsV10X)
    (dirs : List BsaDirSource) : List Nat :=
  (dirs.map (dirDataBytes V o)).flatten

/-- The lowercase ZString file names collected for the pool (when
`IncludeFileNames` is set). -/
def poolNames (o : BsaWriterOptionsV10X) (dirs : List BsaDirSource) :
    List (List Nat) :=
  if o.has includesFileNames then
    (dirs.map (fun d => d.files.map (fun f => lowerStr f.name))).flatten
  else []

/-- The pool's total on-disk size, `total_file_name_length`. -/
def tfnlOf (o : BsaWriterOptionsV10X) (dirs : List BsaDirSource) : Nat :=
  ((poolNames o dirs).map zSize).sum

/-- The header the writer emits. -/
def headerOf (o : BsaWriterOptionsV10X) (dirs : List BsaDirSource) : HeaderV10X :=
  { offset := 36
    archiveFlags := o.archiveFlags
    dirCount := dirs.length
    fileCount := (dirs.map (fun d => d.files.length)).sum
    totalDirNameLength :=
      if o.has includesDirNames then (dirs.map (fun d => d.name.length + 1)).sum
      else 0
    totalFileNameLength := tfnlOf o dirs
    fileFlags := o.fileFlags
    padding := 0 }

/-- Where the content blocks start. -/
def contentBase (V : Variant) (dirs : List BsaDirSource) : Nat :=
  36 + (phBytes V dirs).length

/-- Where the file-name pool starts. -/
def poolBase (V : Variant) (o : BsaWriterOptionsV10X) (dirs : List BsaDirSource) :
    Nat :=
  contentBase V dirs + (blocksOf o dirs).length

/-- Where the file data starts. -/
def dataBase (V : Variant) (o : BsaWriterOptionsV10X) (dirs : List BsaDirSource) :
    Nat :=
  poolBase V o dirs + tfnlOf o dirs

/-- The complete archive the writer produces. -/
def archiveBytes (V : Variant) (o : BsaWriterOptionsV10X)
    (dirs : List BsaDirSource) : List Nat :=
  magicBytes ++ u32le V.version ++ rawHeaderBytes (headerToRaw (headerOf o dirs)) ++
    finalDRsBytes V o (tfnlOf o dirs) dirs (contentBase V dirs) ++
    finalBlocksBytes V o dirs (dataBase V o dirs) ++
    ((poolNames o dirs).map zWrite).flatten ++
    allDataBytes V o dirs

/-- The Pass-A placeholder directory records with their positions,
starting at `pos`. -/
def pdrsOf (V : Variant) (dirs : List BsaDirSource) (pos : Nat) :
    List (Positioned DirRecord) :=
  match dirs with
  | [] => []
  | d :: t => ⟨pos, placeDR d⟩ :: pdrsOf V t (pos + rdrSize V)

/-- The (hash, name, file-list) view of a listed tree, files projected
to (hash, name). -/
def treeView (ds : List BsaDir) :
    List (Nat × Option (List Nat) × List (Nat × Option (List Nat))) :=
  ds.map (fun d => (d.hash, d.name, d.files.map (fun f => (f.hash, f.name))))

/-- The (hash, name, file-list) view of the writer's input, names
lowercased as the writer stores them. -/
def srcTreeView (dirs : List BsaDirSource) :
    List (Nat × Option (List Nat) × List (Nat × Option (List Nat))) :=
  dirs.map (fun d =>
    (hashV10X d.name, some (lowerStr d.name),
      d.files.map (fun f => (hashV10X f.name, some (lowerStr f.name)))))

/-- The position of directory `i`'s content block, as laid out by the
writer. -/
def contentPos (V : Variant) (o : BsaWriterOptionsV10X) (dirs : List BsaDirSource)
    (i : Nat) : Nat :=
  contentBase V dirs + (((dirs.take i).map (fun d => (dcrWrite (contentOf o d)).length)).sum)

/-- The backpatched directory records themselves (the bytes
`finalDRsBytes` encode). -/
def finalDRs (V : Variant) (o : BsaWriterOptionsV10X) (tfnl : Nat)
    (dirs : List BsaDirSource) (base : Nat) : List DirRecord :=
  match dirs with
  | [] => []
  | d :: t =>
    { placeDR d with offset := (base + tfnl) % 2 ^ 32 } ::
      finalDRs V o tfnl t (base + (dcrWrite (contentOf o d)).length)

/-- The directory entries the reader is expected to produce for a
writer-emitted archive, data region starting at `dataPos`. -/
def expectedDirs (V : Variant) (o : BsaWriterOptionsV10X) (H : HeaderV10X)
    (names : List (Nat × List Nat)) (t : List BsaDirSource) (dataPos : Nat) :
    List BsaDir :=
  match t with
  | [] => []
  | d :: tt =>
    { hash := hashV10X d.name
      name := (finalContentOf V o d dataPos).name
      files := (finalFRs V o d d.files dataPos).map (toFile H names) } ::
      expectedDirs V o H names tt (dataPos + (dirDataBytes V o d).length)

/-- Modelled from the spec: the v105 variant — version 105, the full
v104/v105 flag table (bits 0x1..0x200), padded 24-byte directory
records, `EmbedFileNames` at bit 0x100, and an abstract LZ4 codec. -/
def v105Var (compress : List Nat → List Nat) : Variant :=
  { version := 105, flagMask := 0x3FF, rdrPad := true,
    embedFlag := some 0x100, compress := compress }

/-- Modelled from the spec: the v104 variant — 16-byte directory
records, zlib codec. -/
def v104Var (compress : List Nat → List Nat) : Variant :=
  { version := 104, flagMask := 0x3FF, rdrPad := false,
    embedFlag := some 0x100, compress := compress }

/-- Modelled from the spec: the v103 variant — a subset flag table and
no `EmbedFileNames` override (`embed_file_names()` keeps its default
`None`). -/
def v103Var (compress : List Nat → List Nat) : Variant :=
  { version := 103, flagMask := 0x3FF, rdrPad := false,
    embedFlag := none, compress := compress }

/-! ## Byte-level lemmas -/

theorem u16le_length (n : Nat) : (u16le n).length = 2 := rfl

theorem u32le_length (n : Nat) : (u32le n).length = 4 := rfl

theorem u64le_length (n : Nat) : (u64le n).length = 8 := by
  simp [u64le, u32le]

theorem leVal_u32le (n : Nat) : leVal (u32le n) = n % 2 ^ 32 := by
  simp only [u32le, leVal, List.foldr]
  omega

theorem leVal_u16le (n : Nat) : leVal (u16le n) = n % 2 ^ 16 := by
  simp only [u16le, leVal, List.foldr]
  omega

theorem leVal_u64le (n : Nat) : leVal (u64le n) = n % 2 ^ 64 := by
  have h1 : leVal (u64le n) =
      leVal (u32le (n % 2 ^ 32)) + 2 ^ 32 * leVal (u32le (n / 2 ^ 32)) := by
    simp only [u64le, u32le, leVal, List.foldr_append, List.foldr]
    ring
  rw [h1, leVal_u32le, leVal_u32le]
  omega

theorem parseBytes_append (a b : List Nat) :
    parseBytes a.length (a ++ b) = some (a, b) := by
  simp [parseBytes]

theorem parseU32_u32le (n : Nat) (rest : List Nat) :
    parseU32 (u32le n ++ rest) = some (n % 2 ^ 32, rest) := by
  have h : parseBytes 4 (u32le n ++ rest) = some (u32le n, rest) := by
    simpa [u32le_length] using parseBytes_append (u32le n) rest
  simp [parseU32, h, leVal_u32le]

theorem parseU64_u64le (n : Nat) (rest : List Nat) :
    parseU64 (u64le n ++ rest) = some (n % 2 ^ 64, rest) := by
  have h : parseBytes 8 (u64le n ++ rest) = some (u64le n, rest) := by
    simpa [u64le_length] using parseBytes_append (u64le n) rest
  simp [parseU64, h, leVal_u64le]

theorem writeAt_length (s new : List Nat) (p : Nat)
    (h : p + new.length ≤ s.length) : (writeAt s p new).length = s.length := by
  simp only [writeAt, List.length_append, List.length_take, List.length_drop]
  omega

theorem writeAt_exact (pre mid post new : List Nat) (h : new.length = mid.length) :
    writeAt (pre ++ mid ++ post) pre.length new = pre ++ new ++ post := by
  unfold writeAt
  have ht : (pre ++ mid ++ post).take pre.length = pre := by
    rw [List.append_assoc]
    exact List.take_left pre (mid ++ post)
  have hd : (pre ++ mid ++ post).drop (pre.length + new.length) = post := by
    have he : pre.length + new.length = (pre ++ mid).length := by simp [h]
    rw [he]
    exact List.drop_left (pre ++ mid) post
  rw [ht, hd]

/-! ## String codec lemmas -/

theorem parseBZString_bzWrite (s rest : List Nat) :
    parseBZString (bzWrite s ++ rest) = some (s, rest) := by
  have hlen : (s ++ [0]).length = s.length + 1 := by simp
  have hb : parseBytes (s.length + 1) (s ++ 0 :: rest) = some (s ++ [0], rest) := by
    have := parseBytes_append (s ++ [0]) rest
    rw [hlen, List.append_assoc] at this
    simpa using this
  have hlast : (s ++ [0]).getLast? = some 0 := by
    simp [List.getLast?_append]
  have hdl : (s ++ [0]).dropLast = s := by
    simp [List.dropLast_append_of_ne_nil]
  simp [parseBZString, bzWrite, parseU8, hb, hlast, hdl]

theorem parseZString_zWrite (s rest : List Nat) (h : 0 ∉ s) :
    parseZString (zWrite s ++ rest) = some (s, rest) := by
  induction s with
  | nil => simp [zWrite, parseZString]
  | cons b t ih =>
    have hb : b ≠ 0 := fun hb0 => h (by simp [hb0])
    have ht : 0 ∉ t := fun h0 => h (by simp [h0])
    simp [zWrite] at ih ⊢
    simp [parseZString, hb, ih ht]

theorem parseZStrings_concat (names : List (List Nat)) (rest : List Nat)
    (h : ∀ s ∈ names, 0 ∉ s) :
    parseZStrings names.length ((names.map zWrite).flatten ++ rest) = some names := by
  induction names with
  | nil => simp [parseZStrings]
  | cons s t ih =>
    have hs : 0 ∉ s := h s (by simp)
    have ht : ∀ x ∈ t, 0 ∉ x := fun x hx => h x (by simp [hx])
    have hz := parseZString_zWrite s ((t.map zWrite).flatten ++ rest) hs
    simp only [List.length_cons, List.map_cons, List.flatten_cons, List.append_assoc]
    simp [parseZStrings, hz, ih ht]

theorem lowerStr_length (s : List Nat) : (lowerStr s).length = s.length := by
  simp [lowerStr]

theorem asciiLower_eq_zero (b : Nat) : asciiLower b = 0 ↔ b = 0 := by
  unfold asciiLower
  split <;> omega

theorem zero_mem_lowerStr (s : List Nat) : 0 ∈ lowerStr s ↔ 0 ∈ s := by
  simp only [lowerStr, List.mem_map]
  constructor
  · rintro ⟨b, hb, he⟩
    have hb0 : b = 0 := (asciiLower_eq_zero b).mp he
    exact hb0 ▸ hb
  · intro h0
    exact ⟨0, h0, rfl⟩

/-! ## Hash lemmas -/

theorem hashStep_lt (h b : Nat) : hashStep h b < 2 ^ 32 := by
  exact Nat.mod_lt _ (by norm_num)

theorem foldl_hashStep_lt (l : List Nat) (a : Nat) (ha : a < 2 ^ 32) :
    l.foldl hashStep a < 2 ^ 32 := by
  induction l generalizing a with
  | nil => exact ha
  | cons b t ih => exact ih _ (hashStep_lt a b)

theorem stemHash_lt (stem ext : List Nat) : stemHash stem ext < 2 ^ 32 :=
  Nat.mod_lt _ (by norm_num)

theorem hashV10X_lt (name : List Nat) : hashV10X name < 2 ^ 64 := by
  unfold hashV10X
  exact Nat.append_lt (stemHash_lt _ _) (foldl_hashStep_lt _ _ (by norm_num))

theorem asciiLower_asciiLower (b : Nat) : asciiLower (asciiLower b) = asciiLower b := by
  unfold asciiLower
  split
  case isTrue h => rw [if_neg (show ¬(65 ≤ b + 32 ∧ b + 32 ≤ 90) by omega)]
  case isFalse h => rfl

theorem lowerStr_lowerStr (s : List Nat) : lowerStr (lowerStr s) = lowerStr s := by
  simp [lowerStr, List.map_map, Function.comp_def, asciiLower_asciiLower]

/-- The hash depends only on the lowercased name: hashing the lowercase
form that the writer stores in the name pool gives the same key as
hashing the caller's original name. -/
theorem hashV10X_lowerStr (name : List Nat) :
    hashV10X (lowerStr name) = hashV10X name := by
  unfold hashV10X
  rw [lowerStr_lowerStr]

/-! ## Record-size lemmas -/

theorem frWrite_length (f : FileRecord) : (frWrite f).length = 16 := by
  simp [frWrite, u64le_length, u32le_length]

theorem rdrWrite_length (V : Variant) (r : DirRecord) :
    (rdrWrite V r).length = rdrSize V := by
  unfold rdrWrite rdrSize
  split <;> simp [u64le_length, u32le_length]

theorem bzWrite_length (s : List Nat) : (bzWrite s).length = s.length + 2 := by
  simp [bzWrite]

theorem zWrite_length (s : List Nat) : (zWrite s).length = zSize s := by
  simp [zWrite, zSize]

theorem dcrWrite_length (c : DirContentRecord) :
    (dcrWrite c).length =
      (match c.name with
       | some s => s.length + 2
       | none => 0) + 16 * c.files.length := by
  unfold dcrWrite
  cases c.name with
  | none =>
    simp only [List.nil_append, List.length_flatten, List.map_map]
    simp [Function.comp_def, frWrite_length, List.map_const', Nat.mul_comm]
  | some s =>
    simp only [List.length_append, bzWrite_length, List.length_flatten, List.map_map]
    simp [Function.comp_def, frWrite_length, List.map_const', Nat.mul_comm]

theorem finalFRs_length (V : Variant) (o : BsaWriterOptionsV10X)
    (dir : BsaDirSource) (files : List BsaFileSource) (pos : Nat) :
    (finalFRs V o dir files pos).length = files.length := by
  induction files generalizing pos with
  | nil => rfl
  | cons f t ih => simp [finalFRs, ih]

theorem finalContentOf_dcr_length (V : Variant) (o : BsaWriterOptionsV10X)
    (dir : BsaDirSource) (pos : Nat) :
    (dcrWrite (finalContentOf V o dir pos)).length =
      (dcrWrite (contentOf o dir)).length := by
  rw [dcrWrite_length, dcrWrite_length]
  simp [finalContentOf, contentOf, finalFRs_length]

theorem phBytes_length (V : Variant) (dirs : List BsaDirSource) :
    (phBytes V dirs).length = dirs.length * rdrSize V := by
  unfold phBytes
  induction dirs with
  | nil => simp
  | cons d t ih => simp [ih, rdrWrite_length, Nat.add_mul, Nat.add_comm]

theorem finalDRsBytes_length (V : Variant) (o : BsaWriterOptionsV10X) (tfnl : Nat)
    (dirs : List BsaDirSource) (base : Nat) :
    (finalDRsBytes V o tfnl dirs base).length = dirs.length * rdrSize V := by
  induction dirs generalizing base with
  | nil => simp [finalDRsBytes]
  | cons d t ih =>
    simp [finalDRsBytes, ih, rdrWrite_length, Nat.add_mul, Nat.add_comm]

theorem finalBlocksBytes_length (V : Variant) (o : BsaWriterOptionsV10X)
    (dirs : List BsaDirSource) (dataPos : Nat) :
    (finalBlocksBytes V o dirs dataPos).length = (blocksOf o dirs).length := by
  induction dirs generalizing dataPos with
  | nil => simp [finalBlocksBytes, blocksOf]
  | cons d t ih =>
    simp only [finalBlocksBytes, blocksOf, List.map_cons, List.flatten_cons,
      List.length_append] at ih ⊢
    rw [finalContentOf_dcr_length, ih]

theorem pool_length (o : BsaWriterOptionsV10X) (dirs : List BsaDirSource) :
    (((poolNames o dirs).map zWrite).flatten).length = tfnlOf o dirs := by
  unfold tfnlOf
  induction poolNames o dirs with
  | nil => rfl
  | cons s t ih =>
    simp only [List.map_cons, List.flatten_cons, List.length_append, ih, zWrite,
      zSize, List.sum_cons, List.length_cons, List.length_nil]

/-! ## Writer phase lemmas -/

theorem writeAt_end (s new : List Nat) : writeAt s s.length new = s ++ new := by
  unfold writeAt
  simp

theorem zNamesOf_eq (files : List BsaFileSource)
    (h : ∀ f ∈ files, (0 : Nat) ∉ f.name) :
    zNamesOf files = some (files.map (fun f => lowerStr f.name)) := by
  induction files with
  | nil => rfl
  | cons f t ih =>
    have hf : (0 : Nat) ∉ lowerStr f.name := by
      rw [zero_mem_lowerStr]
      exact h f (by simp)
    have ht := ih (fun x hx => h x (by simp [hx]))
    simp [zNamesOf, zNew, hf, ht]

theorem poolNames_cons (o : BsaWriterOptionsV10X) (d : BsaDirSource)
    (t : List BsaDirSource) :
    poolNames o (d :: t) =
      (if o.has includesFileNames then d.files.map (fun f => lowerStr f.name)
       else []) ++ poolNames o t := by
  cases hg : o.has includesFileNames <;> simp [poolNames, hg]

theorem foldl_bumpHeader (o : BsaWriterOptionsV10X) (dirs : List BsaDirSource) :
    ∀ h : HeaderV10X,
    dirs.foldl (bumpHeader o) h =
      { h with
          dirCount := h.dirCount + dirs.length
          fileCount := h.fileCount + (dirs.map (fun d => d.files.length)).sum
          totalDirNameLength := h.totalDirNameLength +
            (if o.has includesDirNames then
               (dirs.map (fun d => d.name.length + 1)).sum
             else 0) } := by
  induction dirs with
  | nil =>
    intro h
    cases hf : o.has includesDirNames <;> simp [hf]
  | cons d t ih =>
    intro h
    rw [List.foldl_cons, ih]
    cases hf : o.has includesDirNames <;>
      simp [bumpHeader, hf, HeaderV10X.mk.injEq] <;> omega

theorem headerFold (o : BsaWriterOptionsV10X) (dirs : List BsaDirSource)
    (hnn : o.has includesFileNames = true →
      ∀ d ∈ dirs, ∀ f ∈ d.files, (0 : Nat) ∉ f.name) :
    ∀ (h : HeaderV10X) (ns : List (List Nat)),
    dirs.foldlM (headerAccDir o) (h, ns) =
      some (dirs.foldl (bumpHeader o) h, ns ++ poolNames o dirs) := by
  induction dirs with
  | nil =>
    intro h ns
    simp [poolNames]
  | cons d t ih =>
    intro h ns
    have hstep : headerAccDir o (h, ns) d =
        some (bumpHeader o h d,
          ns ++ (if o.has includesFileNames then
                   d.files.map (fun f => lowerStr f.name)
                 else [])) := by
      unfold headerAccDir
      cases hg : o.has includesFileNames with
      | true => simp [hg, zNamesOf_eq d.files (hnn hg d (by simp))]
      | false => simp [hg]
    have ih2 := ih (fun hg x hx f hf => hnn hg x (by simp [hx]) f hf)
    simp only [List.foldlM_cons, hstep, Option.bind_eq_bind, Option.some_bind]
    rw [ih2]
    rw [poolNames_cons, List.foldl_cons, List.append_assoc]

theorem writeHeader_eq (o : BsaWriterOptionsV10X) (dirs : List BsaDirSource)
    (s : List Nat) (hs : s.length = 8)
    (hnn : o.has includesFileNames = true →
      ∀ d ∈ dirs, ∀ f ∈ d.files, (0 : Nat) ∉ f.name) :
    writeHeader o dirs s =
      some (headerOf o dirs,
        { size := tfnlOf o dirs, values := poolNames o dirs },
        s ++ rawHeaderBytes (headerToRaw (headerOf o dirs))) := by
  unfold writeHeader
  rw [headerFold o dirs hnn, foldl_bumpHeader]
  have hh :
      { (headerFromOptions o) with
          dirCount := (headerFromOptions o).dirCount + dirs.length
          fileCount := (headerFromOptions o).fileCount +
            (dirs.map (fun d => d.files.length)).sum
          totalDirNameLength := (headerFromOptions o).totalDirNameLength +
            (if o.has includesDirNames then
               (dirs.map (fun d => d.name.length + 1)).sum
             else 0)
          totalFileNameLength := ((([] ++ poolNames o dirs)).map zSize).sum } =
        headerOf o dirs := by
    simp [headerFromOptions, defaultHeader, headerOf, tfnlOf]
  have hw : writeFixedHeader (headerOf o dirs) s =
      s ++ rawHeaderBytes (headerToRaw (headerOf o dirs)) := by
    unfold writeFixedHeader
    rw [← hs, writeAt_end]
  simp only [List.nil_append] at hh ⊢
  rw [hh, hw]
  rfl

theorem writeDirRecords_fold (V : Variant) (dirs : List BsaDirSource) :
    ∀ (s : List Nat) (acc : List (Positioned DirRecord)),
    dirs.foldl
      (fun acc dir =>
        let p := writeDirRecord V dir acc.2
        (acc.1 ++ [p.1], p.2))
      (acc, s) = (acc ++ pdrsOf V dirs s.length, s ++ phBytes V dirs) := by
  induction dirs with
  | nil =>
    intro s acc
    simp [pdrsOf, phBytes]
  | cons d t ih =>
    intro s acc
    rw [List.foldl_cons]
    show t.foldl _ (acc ++ [⟨s.length, placeDR d⟩], s ++ rdrWrite V (placeDR d)) = _
    rw [ih]
    simp only [pdrsOf, phBytes, List.map_cons, List.flatten_cons]
    rw [List.length_append, rdrWrite_length]
    simp [phBytes]

theorem writeDirRecords_eq (V : Variant) (dirs : List BsaDirSource) (s : List Nat) :
    writeDirRecords V dirs s = (pdrsOf V dirs s.length, s ++ phBytes V dirs) := by
  unfold writeDirRecords
  simpa using writeDirRecords_fold V dirs s []

theorem writeDirContentRecord_eq (V : Variant) (o : BsaWriterOptionsV10X)
    (dir : BsaDirSource) (s : List Nat)
    (hbz : o.has includesDirNames = true → dir.name.length ≤ 254) :
    writeDirContentRecord V o dir s =
      some (⟨s.length, contentOf o dir⟩, s ++ dcrWrite (contentOf o dir)) := by
  unfold writeDirContentRecord
  have hfiles : (fun file : BsaFileSource =>
      ({ nameHash := hashV10X file.name
         size := if file.compressed == some (!o.has isCompressedByDefault)
                 then 0x40000000 else 0
         offset := 0 } : FileRecord)) = placeFR o := rfl
  rw [hfiles]
  cases hf : o.has includesDirNames with
  | true =>
    have hl : (lowerStr dir.name).length ≤ 254 := by
      rw [lowerStr_length]
      exact hbz hf
    simp only [hf, if_true, bzNew, if_pos hl, Option.map_some]
    simp [contentOf, hf]
  | false =>
    simp only [hf, Bool.false_eq_true, if_false]
    simp [contentOf, hf]

theorem wdcr_fold (V : Variant) (o : BsaWriterOptionsV10X) (tfnl : Nat) :
    ∀ (t : List BsaDirSource) (pre post : List Nat)
      (acc : List (Positioned DirContentRecord)),
    (∀ d ∈ t, o.has includesDirNames = true → d.name.length ≤ 254) →
    (t.zip (pdrsOf V t pre.length)).foldlM
      (fun acc pair =>
        match writeDirContentRecord V o pair.1 acc.2 with
        | none => none
        | some (fcr, s1) =>
          let dr := { pair.2.data with offset := (fcr.position + tfnl) % 2 ^ 32 }
          some (acc.1 ++ [fcr], writeAt s1 pair.2.position (rdrWrite V dr)))
      (acc, pre ++ phBytes V t ++ post) =
    some
      (acc ++ pfcrsOf o t (pre.length + (phBytes V t).length + post.length),
       pre ++
         finalDRsBytes V o tfnl t (pre.length + (phBytes V t).length + post.length) ++
         post ++ blocksOf o t) := by
  intro t
  induction t with
  | nil =>
    intro pre post acc hbz
    simp [pdrsOf, phBytes, blocksOf, pfcrsOf, finalDRsBytes]
  | cons d tt ih =>
    intro pre post acc hbz
    have hb0 : pre ++ phBytes V (d :: tt) ++ post =
        pre ++ (rdrWrite V (placeDR d) ++ phBytes V tt) ++ post := by
      simp [phBytes]
    have hrec := writeDirContentRecord_eq V o d
      (pre ++ phBytes V (d :: tt) ++ post) (hbz d (by simp))
    simp only [pdrsOf, List.zip_cons_cons, List.foldlM_cons, hrec,
      Option.bind_eq_bind, Option.some_bind]
    have hpatch :
        writeAt (pre ++ phBytes V (d :: tt) ++ post ++ dcrWrite (contentOf o d))
          pre.length
          (rdrWrite V { placeDR d with
            offset := ((pre ++ phBytes V (d :: tt) ++ post).length + tfnl) % 2 ^ 32 }) =
        (pre ++ rdrWrite V { placeDR d with
            offset := ((pre ++ phBytes V (d :: tt) ++ post).length + tfnl) % 2 ^ 32 }) ++
          phBytes V tt ++ (post ++ dcrWrite (contentOf o d)) := by
      have hshape :
          pre ++ phBytes V (d :: tt) ++ post ++ dcrWrite (contentOf o d) =
            pre ++ rdrWrite V (placeDR d) ++
              (phBytes V tt ++ (post ++ dcrWrite (contentOf o d))) := by
        rw [hb0]
        simp [List.append_assoc]
      rw [hshape,
        writeAt_exact pre (rdrWrite V (placeDR d))
          (phBytes V tt ++ (post ++ dcrWrite (contentOf o d)))
          (rdrWrite V { placeDR d with
            offset := ((pre ++ phBytes V (d :: tt) ++ post).length + tfnl) % 2 ^ 32 })
          (by rw [rdrWrite_length, rdrWrite_length])]
      simp [List.append_assoc]
    rw [hpatch]
    have hlen :
        ((pre ++ rdrWrite V { placeDR d with
            offset := ((pre ++ phBytes V (d :: tt) ++ post).length + tfnl) % 2 ^ 32 })).length =
          pre.length + rdrSize V := by
      simp [rdrWrite_length]
    rw [show pdrsOf V tt (pre.length + rdrSize V) =
        pdrsOf V tt ((pre ++ rdrWrite V { placeDR d with
          offset := ((pre ++ phBytes V (d :: tt) ++ post).length + tfnl) % 2 ^ 32 })).length
      from by rw [hlen]]
    rw [ih _ (post ++ dcrWrite (contentOf o d)) _
      (fun x hx => hbz x (by simp [hx]))]
    have hbase :
        (pre ++ rdrWrite V { placeDR d with
            offset := ((pre ++ phBytes V (d :: tt) ++ post).length + tfnl) % 2 ^ 32 }).length +
          (phBytes V tt).length + (post ++ dcrWrite (contentOf o d)).length =
        pre.length + (phBytes V (d :: tt)).length + post.length +
          (dcrWrite (contentOf o d)).length := by
      simp [rdrWrite_length, phBytes, rdrWrite_length]
      omega
    rw [hbase]
    have hpos : (pre ++ phBytes V (d :: tt) ++ post).length =
        pre.length + (phBytes V (d :: tt)).length + post.length := by
      simp only [List.length_append]
    simp only [hpos, pfcrsOf, finalDRsBytes, blocksOf, List.map_cons,
      List.flatten_cons]
    simp [List.append_assoc, blocksOf]

theorem writeDirContentRecords_eq (V : Variant) (o : BsaWriterOptionsV10X)
    (tfnl : Nat) (dirs : List BsaDirSource) (pre : List Nat)
    (hbz : ∀ d ∈ dirs, o.has includesDirNames = true → d.name.length ≤ 254) :
    writeDirContentRecords V o dirs (pdrsOf V dirs pre.length) tfnl
        (pre ++ phBytes V dirs) =
      some (pfcrsOf o dirs (pre.length + (phBytes V dirs).length),
        pre ++ finalDRsBytes V o tfnl dirs (pre.length + (phBytes V dirs).length) ++
          blocksOf o dirs) := by
  unfold writeDirContentRecords
  have h := wdcr_fold V o tfnl dirs pre [] [] hbz
  simpa using h

theorem writeFileContent_eq (V : Variant) (o : BsaWriterOptionsV10X)
    (dir : BsaDirSource) (file : BsaFileSource) (s : List Nat)
    (hb : o.hasEmbed V = true →
      (normSepStr dir.name ++ [92] ++ normSepStr file.name).length ≤ 255) :
    writeFileContent V o dir file s =
      some (cntOf V o file, s ++ dataBlockOf V o dir file) := by
  unfold writeFileContent
  have hs1 : (if o.hasEmbed V then writeEmbededFileName dir.name file.name s
              else some s) = some (s ++ embedBytes V o dir file) := by
    cases he : o.hasEmbed V with
    | true =>
      have hp := hb he
      simp only [List.append_assoc, List.singleton_append] at hp
      have hbn : bNew (normSepStr dir.name ++ 92 :: normSepStr file.name) =
          some (normSepStr dir.name ++ 92 :: normSepStr file.name) := by
        unfold bNew
        rw [if_pos hp]
      simp [he, writeEmbededFileName, hbn, embedBytes, bWrite]
    | false => simp [he, embedBytes]
  rw [hs1]
  cases hc : file.compressed.getD (o.has isCompressedByDefault) with
  | true =>
    have hw : writeAt
        (((s ++ embedBytes V o dir file) ++ u32le 0) ++ V.compress file.data)
        (s ++ embedBytes V o dir file).length (u32le file.data.length) =
        (s ++ embedBytes V o dir file) ++ u32le file.data.length ++
          V.compress file.data :=
      writeAt_exact (s ++ embedBytes V o dir file) (u32le 0)
        (V.compress file.data) (u32le file.data.length)
        (by rw [u32le_length, u32le_length])
    simp only [hc, if_true, hw]
    have hcnt : ((s ++ embedBytes V o dir file) ++ u32le file.data.length ++
        V.compress file.data).length - (s ++ embedBytes V o dir file).length =
        cntOf V o file := by
      simp only [List.length_append, u32le_length, cntOf, effComp, hc, if_true]
      omega
    rw [hcnt]
    have hdata : (s ++ embedBytes V o dir file) ++ u32le file.data.length ++
        V.compress file.data = s ++ dataBlockOf V o dir file := by
      simp [dataBlockOf, effComp, hc]
    rw [hdata]
  | false =>
    simp only [hc, Bool.false_eq_true, if_false]
    have hdata : (s ++ embedBytes V o dir file) ++ file.data =
        s ++ dataBlockOf V o dir file := by
      simp [dataBlockOf, effComp, hc]
    have hcnt : file.data.length = cntOf V o file := by
      simp [cntOf, effComp, hc]
    rw [hdata, hcnt]

theorem wdf_fold (V : Variant) (o : BsaWriterOptionsV10X) (dir : BsaDirSource) :
    ∀ (files : List BsaFileSource) (s : List Nat) (acc : List FileRecord),
    (∀ f ∈ files, o.hasEmbed V = true →
      (normSepStr dir.name ++ [92] ++ normSepStr f.name).length ≤ 255) →
    (files.zip (files.map (placeFR o))).foldlM
      (fun acc pair =>
        match writeFileContent V o dir pair.1 acc.2 with
        | none => none
        | some (cnt, s2) =>
          let fr := { pair.2 with offset := acc.2.length % 2 ^ 32,
                                  size := pair.2.size ||| cnt % 2 ^ 32 }
          some (acc.1 ++ [fr], s2))
      (acc, s) =
    some (acc ++ finalFRs V o dir files s.length,
          s ++ (files.map (dataBlockOf V o dir)).flatten) := by
  intro files
  induction files with
  | nil =>
    intro s acc hemb
    simp [finalFRs]
  | cons f t ih =>
    intro s acc hemb
    simp only [List.map_cons, List.zip_cons_cons, List.foldlM_cons,
      writeFileContent_eq V o dir f s (hemb f (by simp)),
      Option.bind_eq_bind, Option.some_bind]
    rw [ih (s ++ dataBlockOf V o dir f) _ (fun x hx => hemb x (by simp [hx]))]
    simp only [finalFRs, List.length_append, List.flatten_cons]
    simp [List.append_assoc]

theorem writeDirFiles_eq (V : Variant) (o : BsaWriterOptionsV10X)
    (dir : BsaDirSource) (files : List BsaFileSource) (s : List Nat)
    (hemb : ∀ f ∈ files, o.hasEmbed V = true →
      (normSepStr dir.name ++ [92] ++ normSepStr f.name).length ≤ 255) :
    writeDirFiles V o dir (files.zip (files.map (placeFR o))) s =
      some (finalFRs V o dir files s.length,
        s ++ (files.map (dataBlockOf V o dir)).flatten) := by
  unfold writeDirFiles
  simpa using wdf_fold V o dir files s [] hemb

theorem contentOf_files (o : BsaWriterOptionsV10X) (d : BsaDirSource) :
    (contentOf o d).files = d.files.map (placeFR o) := rfl

theorem finalContentOf_eq_set (V : Variant) (o : BsaWriterOptionsV10X)
    (d : BsaDirSource) (pos : Nat) :
    { contentOf o d with files := finalFRs V o d d.files pos } =
      finalContentOf V o d pos := rfl

theorem wfc_fold (V : Variant) (o : BsaWriterOptionsV10X) :
    ∀ (t : List BsaDirSource) (pre post : List Nat)
      (acc : List (Positioned DirContentRecord)),
    (∀ d ∈ t, ∀ f ∈ d.files, o.hasEmbed V = true →
      (normSepStr d.name ++ [92] ++ normSepStr f.name).length ≤ 255) →
    (t.zip (pfcrsOf o t pre.length)).foldlM
      (fun acc pair =>
        match writeDirFiles V o pair.1 (pair.1.files.zip pair.2.data.files) acc.2 with
        | none => none
        | some (files2, s2) =>
          let c2 := { pair.2.data with files := files2 }
          some (acc.1 ++ [(⟨pair.2.position, c2⟩ : Positioned DirContentRecord)],
                writeAt s2 pair.2.position (dcrWrite c2)))
      (acc, pre ++ blocksOf o t ++ post) =
    some
      (acc ++ finalPfcrs V o t pre.length
         (pre.length + (blocksOf o t).length + post.length),
       pre ++
         finalBlocksBytes V o t (pre.length + (blocksOf o t).length + post.length) ++
         post ++ allDataBytes V o t) := by
  intro t
  induction t with
  | nil =>
    intro pre post acc hemb
    simp [pfcrsOf, blocksOf, finalPfcrs, finalBlocksBytes, allDataBytes]
  | cons d tt ih =>
    intro pre post acc hemb
    have hsink : pre ++ blocksOf o (d :: tt) ++ post =
        pre ++ (dcrWrite (contentOf o d) ++ blocksOf o tt) ++ post := by
      simp [blocksOf]
    have hwdf := writeDirFiles_eq V o d d.files
      (pre ++ blocksOf o (d :: tt) ++ post)
      (fun f hf => hemb d (by simp) f hf)
    simp only [pfcrsOf, List.zip_cons_cons, List.foldlM_cons, contentOf_files,
      hwdf, Option.bind_eq_bind, Option.some_bind]
    have hfc : ({ contentOf o d with
        files := finalFRs V o d d.files
          (pre ++ blocksOf o (d :: tt) ++ post).length } : DirContentRecord) =
        finalContentOf V o d (pre.length + (blocksOf o (d :: tt)).length + post.length) := by
      rw [finalContentOf_eq_set]
      simp only [List.length_append]
    rw [hfc]
    have hpatch :
        writeAt
          (pre ++ blocksOf o (d :: tt) ++ post ++
            (d.files.map (dataBlockOf V o d)).flatten)
          pre.length
          (dcrWrite (finalContentOf V o d
            (pre.length + (blocksOf o (d :: tt)).length + post.length))) =
        (pre ++ dcrWrite (finalContentOf V o d
            (pre.length + (blocksOf o (d :: tt)).length + post.length))) ++
          blocksOf o tt ++
          (post ++ (d.files.map (dataBlockOf V o d)).flatten) := by
      have hshape :
          pre ++ blocksOf o (d :: tt) ++ post ++
              (d.files.map (dataBlockOf V o d)).flatten =
            pre ++ dcrWrite (contentOf o d) ++
              (blocksOf o tt ++
                (post ++ (d.files.map (dataBlockOf V o d)).flatten)) := by
        rw [hsink]
        simp [List.append_assoc]
      rw [hshape,
        writeAt_exact pre (dcrWrite (contentOf o d))
          (blocksOf o tt ++ (post ++ (d.files.map (dataBlockOf V o d)).flatten))
          (dcrWrite (finalContentOf V o d
            (pre.length + (blocksOf o (d :: tt)).length + post.length)))
          (finalContentOf_dcr_length V o d _)]
      simp [List.append_assoc]
    rw [hpatch]
    have hlen2 :
        (pre ++ dcrWrite (finalContentOf V o d
           (pre.length + (blocksOf o (d :: tt)).length + post.length))).length =
          pre.length + (dcrWrite (contentOf o d)).length := by
      simp [finalContentOf_dcr_length]
    rw [show pfcrsOf o tt (pre.length + (dcrWrite (contentOf o d)).length) =
        pfcrsOf o tt (pre ++ dcrWrite (finalContentOf V o d
          (pre.length + (blocksOf o (d :: tt)).length + post.length))).length
      from by rw [hlen2]]
    rw [ih _ (post ++ (d.files.map (dataBlockOf V o d)).flatten) _
      (fun x hx f hf => hemb x (by simp [hx]) f hf)]
    have hdd : (d.files.map (dataBlockOf V o d)).flatten = dirDataBytes V o d := rfl
    have hbase :
        (pre ++ dcrWrite (finalContentOf V o d
           (pre.length + (blocksOf o (d :: tt)).length + post.length))).length +
          (blocksOf o tt).length +
          (post ++ (d.files.map (dataBlockOf V o d)).flatten).length =
        pre.length + (blocksOf o (d :: tt)).length + post.length +
          (dirDataBytes V o d).length := by
      rw [hlen2]
      simp only [List.length_append, hdd, blocksOf, List.map_cons,
        List.flatten_cons]
      simp [blocksOf]
      omega
    rw [hbase]
    simp only [finalPfcrs, finalBlocksBytes, allDataBytes, List.map_cons,
      List.flatten_cons, hdd]
    simp [List.append_assoc, allDataBytes, hdd]
    rw [finalContentOf_dcr_length]

theorem writeFileContents_eq (V : Variant) (o : BsaWriterOptionsV10X)
    (dirs : List BsaDirSource) (pre post : List Nat)
    (hemb : ∀ d ∈ dirs, ∀ f ∈ d.files, o.hasEmbed V = true →
      (normSepStr d.name ++ [92] ++ normSepStr f.name).length ≤ 255) :
    writeFileContents V o dirs (pfcrsOf o dirs pre.length)
        (pre ++ blocksOf o dirs ++ post) =
      some
        (finalPfcrs V o dirs pre.length
           (pre.length + (blocksOf o dirs).length + post.length),
         pre ++
           finalBlocksBytes V o dirs
             (pre.length + (blocksOf o dirs).length + post.length) ++
           post ++ allDataBytes V o dirs) := by
  unfold writeFileContents
  simpa using wfc_fold V o dirs pre post [] hemb

theorem rawHeaderBytes_length (r : RawHeader) : (rawHeaderBytes r).length = 28 := by
  simp [rawHeaderBytes, u32le_length, u16le_length, u32le, u16le]

theorem writeVersion_length (V : Variant) (s : List Nat) :
    (writeVersion V s).length = s.length + 8 := by
  simp [writeVersion, magicBytes, u32le]

theorem writeBsa_eq (V : Variant) (o : BsaWriterOptionsV10X)
    (dirs : List BsaDirSource)
    (hnn : o.has includesFileNames = true →
      ∀ d ∈ dirs, ∀ f ∈ d.files, (0 : Nat) ∉ f.name)
    (hbz : ∀ d ∈ dirs, o.has includesDirNames = true → d.name.length ≤ 254)
    (hemb : ∀ d ∈ dirs, ∀ f ∈ d.files, o.hasEmbed V = true →
      (normSepStr d.name ++ [92] ++ normSepStr f.name).length ≤ 255) :
    writeBsa V o dirs = some (archiveBytes V o dirs) := by
  unfold writeBsa
  dsimp only
  rw [writeHeader_eq o dirs (writeVersion V [])
    (by simp [writeVersion_length]) hnn]
  simp only []
  rw [writeDirRecords_eq]
  have hs2 : (writeVersion V [] ++
      rawHeaderBytes (headerToRaw (headerOf o dirs))).length = 36 := by
    simp [writeVersion_length, rawHeaderBytes_length]
  rw [writeDirContentRecords_eq V o (tfnlOf o dirs) dirs _ hbz]
  simp only []
  set s2 := writeVersion V [] ++ rawHeaderBytes (headerToRaw (headerOf o dirs))
    with hs2def
  have hpool :
      (s2 ++ finalDRsBytes V o (tfnlOf o dirs) dirs
          (s2.length + (phBytes V dirs).length) ++ blocksOf o dirs) ++
        ((poolNames o dirs).map zWrite).flatten =
      (s2 ++ finalDRsBytes V o (tfnlOf o dirs) dirs
          (s2.length + (phBytes V dirs).length)) ++ blocksOf o dirs ++
        ((poolNames o dirs).map zWrite).flatten := by
    simp [List.append_assoc]
  rw [hpool]
  have hpre3 : (s2 ++ finalDRsBytes V o (tfnlOf o dirs) dirs
      (s2.length + (phBytes V dirs).length)).length =
      s2.length + (phBytes V dirs).length := by
    simp [finalDRsBytes_length, phBytes_length]
  rw [show pfcrsOf o dirs (s2.length + (phBytes V dirs).length) =
      pfcrsOf o dirs (s2 ++ finalDRsBytes V o (tfnlOf o dirs) dirs
        (s2.length + (phBytes V dirs).length)).length
    from by rw [hpre3]]
  rw [writeFileContents_eq V o dirs _ _ hemb]
  simp only []
  unfold archiveBytes
  have hcb : s2.length + (phBytes V dirs).length = contentBase V dirs := by
    rw [hs2]
    rfl
  have hdb : (s2 ++ finalDRsBytes V o (tfnlOf o dirs) dirs
      (s2.length + (phBytes V dirs).length)).length +
      (blocksOf o dirs).length +
      (((poolNames o dirs).map zWrite).flatten).length = dataBase V o dirs := by
    rw [hpre3, hcb, pool_length]
    rfl
  rw [hdb, hcb]
  rw [hs2def]
  simp only [writeVersion, List.nil_append]

/-! ## Reader parse lemmas -/

theorem parseBytes2_u16le (n : Nat) (rest : List Nat) :
    parseBytes 2 (u16le n ++ rest) = some (u16le n, rest) := by
  simpa [u16le_length] using parseBytes_append (u16le n) rest

theorem parseRawHeader_bytes (r : RawHeader) (rest : List Nat) :
    parseRawHeader (rawHeaderBytes r ++ rest) =
      some { offset := r.offset % 2 ^ 32
             archiveFlags := r.archiveFlags % 2 ^ 32
             dirCount := r.dirCount % 2 ^ 32
             fileCount := r.fileCount % 2 ^ 32
             totalDirNameLength := r.totalDirNameLength % 2 ^ 32
             totalFileNameLength := r.totalFileNameLength % 2 ^ 32
             fileFlags := r.fileFlags % 2 ^ 16
             padding := r.padding % 2 ^ 16 } := by
  unfold parseRawHeader rawHeaderBytes
  simp only [List.append_assoc, parseU32_u32le, parseBytes2_u16le, leVal_u16le]

theorem parseFileRecord_frWrite (f : FileRecord) (rest : List Nat)
    (hh : f.nameHash < 2 ^ 64) (hs : f.size < 2 ^ 32) (ho : f.offset < 2 ^ 32) :
    parseFileRecord (frWrite f ++ rest) = some (f, rest) := by
  obtain ⟨fh, fsz, foff⟩ := f
  simp only at hh hs ho
  unfold parseFileRecord frWrite
  simp only [List.append_assoc, parseU64_u64le, parseU32_u32le]
  simp only [Option.some.injEq, Prod.mk.injEq, FileRecord.mk.injEq,
    eq_self_iff_true, and_true, true_and]
  omega

theorem parseFileRecords_concat (fs : List FileRecord) (rest : List Nat)
    (hok : ∀ f ∈ fs, f.nameHash < 2 ^ 64 ∧ f.size < 2 ^ 32 ∧ f.offset < 2 ^ 32) :
    parseFileRecords fs.length ((fs.map frWrite).flatten ++ rest) =
      some (fs, rest) := by
  induction fs with
  | nil => simp [parseFileRecords]
  | cons f t ih =>
    have hf := hok f (by simp)
    have ht := ih (fun x hx => hok x (by simp [hx]))
    simp only [List.length_cons, List.map_cons, List.flatten_cons,
      List.append_assoc, parseFileRecords,
      parseFileRecord_frWrite f _ hf.1 hf.2.1 hf.2.2, ht]
    simp

theorem parseRDR_rdrWrite (V : Variant) (r : DirRecord) (rest : List Nat)
    (hh : r.nameHash < 2 ^ 64) (hf : r.fileCount < 2 ^ 32)
    (ho : r.offset < 2 ^ 32) :
    parseRDR V (rdrWrite V r ++ rest) = some (r, rest) := by
  obtain ⟨rh, rfc, roff⟩ := r
  simp only at hh hf ho
  unfold parseRDR rdrWrite
  cases hp : V.rdrPad with
  | true =>
    simp only [hp, if_true, List.append_assoc, parseU64_u64le, parseU32_u32le,
      Option.map_some']
    simp only [Option.some.injEq, Prod.mk.injEq, DirRecord.mk.injEq,
      eq_self_iff_true, and_true, true_and]
    omega
  | false =>
    simp only [hp, Bool.false_eq_true, if_false, List.append_assoc,
      parseU64_u64le, parseU32_u32le]
    simp only [Option.some.injEq, Prod.mk.injEq, DirRecord.mk.injEq,
      eq_self_iff_true, and_true, true_and]
    omega

theorem finalDRsBytes_eq_flatten (V : Variant) (o : BsaWriterOptionsV10X)
    (tfnl : Nat) (dirs : List BsaDirSource) (base : Nat) :
    finalDRsBytes V o tfnl dirs base =
      ((finalDRs V o tfnl dirs base).map (rdrWrite V)).flatten := by
  induction dirs generalizing base with
  | nil => simp [finalDRsBytes, finalDRs]
  | cons d t ih => simp [finalDRsBytes, finalDRs, ih]

theorem parseRDRs_concat (V : Variant) (rs : List DirRecord) (rest : List Nat)
    (hok : ∀ r ∈ rs, r.nameHash < 2 ^ 64 ∧ r.fileCount < 2 ^ 32 ∧
      r.offset < 2 ^ 32) :
    parseRDRs V rs.length ((rs.map (rdrWrite V)).flatten ++ rest) =
      some (rs, rest) := by
  induction rs with
  | nil => simp [parseRDRs]
  | cons r t ih =>
    have hr := hok r (by simp)
    have ht := ih (fun x hx => hok x (by simp [hx]))
    simp only [List.length_cons, List.map_cons, List.flatten_cons,
      List.append_assoc, parseRDRs,
      parseRDR_rdrWrite V r _ hr.1 hr.2.1 hr.2.2, ht]
    simp

theorem parseDirContentRecord_final (V : Variant) (o : BsaWriterOptionsV10X)
    (d : BsaDirSource) (dataPos : Nat) (rest : List Nat)
    (hname : o.has includesDirNames = true)
    (hok : ∀ f ∈ finalFRs V o d d.files dataPos,
      f.nameHash < 2 ^ 64 ∧ f.size < 2 ^ 32 ∧ f.offset < 2 ^ 32) :
    parseDirContentRecord true d.files.length
        (dcrWrite (finalContentOf V o d dataPos) ++ rest) =
      some (finalContentOf V o d dataPos) := by
  unfold parseDirContentRecord
  have hn : (finalContentOf V o d dataPos).name = some (lowerStr d.name) := by
    simp [finalContentOf, hname]
  have hshape : dcrWrite (finalContentOf V o d dataPos) ++ rest =
      bzWrite (lowerStr d.name) ++
        (((finalFRs V o d d.files dataPos).map frWrite).flatten ++ rest) := by
    unfold dcrWrite
    rw [hn]
    simp [finalContentOf, List.append_assoc]
  rw [hshape]
  simp only [if_true, parseBZString_bzWrite, Option.map_some']
  have hlen : d.files.length = (finalFRs V o d d.files dataPos).length :=
    (finalFRs_length V o d d.files dataPos).symm
  rw [hlen, parseFileRecords_concat _ _ hok]
  simp [finalContentOf, hname]

/-! ## Reading back a written archive -/

theorem drop_append_of_length (a b : List Nat) (n : Nat) (h : a.length = n) :
    (a ++ b).drop n = b := by
  subst h
  exact List.drop_left a b

theorem archive_split8 (V : Variant) (o : BsaWriterOptionsV10X)
    (dirs : List BsaDirSource) :
    archiveBytes V o dirs =
      (magicBytes ++ u32le V.version) ++
        (rawHeaderBytes (headerToRaw (headerOf o dirs)) ++
          (finalDRsBytes V o (tfnlOf o dirs) dirs (contentBase V dirs) ++
            (finalBlocksBytes V o dirs (dataBase V o dirs) ++
              (((poolNames o dirs).map zWrite).flatten ++
                allDataBytes V o dirs)))) := by
  unfold archiveBytes
  simp [List.append_assoc]

theorem readFixedHeader_archive (V : Variant) (o : BsaWriterOptionsV10X)
    (dirs : List BsaDirSource)
    (hfl : o.archiveFlags < 2 ^ 32 ∧ o.archiveFlags &&& V.flagMask = o.archiveFlags)
    (hff : o.fileFlags < 2 ^ 16 ∧ o.fileFlags &&& 0x1FF = o.fileFlags)
    (hn : dirs.length < 2 ^ 32)
    (hF : (dirs.map (fun d => d.files.length)).sum < 2 ^ 32)
    (htd : (headerOf o dirs).totalDirNameLength < 2 ^ 32)
    (htf : tfnlOf o dirs < 2 ^ 32) :
    readFixedHeader V (archiveBytes V o dirs) = some (headerOf o dirs) := by
  unfold readFixedHeader
  have hdrop : (archiveBytes V o dirs).drop 8 =
      rawHeaderBytes (headerToRaw (headerOf o dirs)) ++
        (finalDRsBytes V o (tfnlOf o dirs) dirs (contentBase V dirs) ++
          (finalBlocksBytes V o dirs (dataBase V o dirs) ++
            (((poolNames o dirs).map zWrite).flatten ++
              allDataBytes V o dirs))) := by
    rw [archive_split8]
    exact drop_append_of_length _ _ 8 (by simp [magicBytes, u32le])
  rw [hdrop, parseRawHeader_bytes]
  unfold headerOf at htd
  simp only at htd
  simp only [Option.map_some', Option.some.injEq]
  unfold headerFromRaw headerToRaw headerOf
  simp only [HeaderV10X.mk.injEq]
  refine ⟨by norm_num, ?_, ?_, ?_, ?_, ?_, ?_, by norm_num⟩
  · rw [Nat.mod_eq_of_lt hfl.1]
    exact hfl.2
  · exact Nat.mod_eq_of_lt hn
  · exact Nat.mod_eq_of_lt hF
  · exact Nat.mod_eq_of_lt htd
  · exact Nat.mod_eq_of_lt htf
  · rw [Nat.mod_eq_of_lt hff.1]
    exact hff.2

theorem finalDRs_length (V : Variant) (o : BsaWriterOptionsV10X) (tfnl : Nat)
    (dirs : List BsaDirSource) (base : Nat) :
    (finalDRs V o tfnl dirs base).length = dirs.length := by
  induction dirs generalizing base with
  | nil => rfl
  | cons d t ih => simp [finalDRs, ih]

theorem finalDRs_mem (V : Variant) (o : BsaWriterOptionsV10X) (tfnl : Nat)
    (dirs : List BsaDirSource) (base : Nat) :
    ∀ r ∈ finalDRs V o tfnl dirs base,
      ∃ d ∈ dirs, r.nameHash = hashV10X d.name ∧ r.fileCount = d.files.length ∧
        r.offset < 2 ^ 32 := by
  induction dirs generalizing base with
  | nil => simp [finalDRs]
  | cons d t ih =>
    intro r hr
    simp only [finalDRs, List.mem_cons] at hr
    cases hr with
    | inl he =>
      refine ⟨d, by simp, ?_⟩
      rw [he]
      exact ⟨rfl, rfl, Nat.mod_lt _ (by norm_num)⟩
    | inr ht =>
      obtain ⟨d2, hd2, hp⟩ := ih _ r ht
      exact ⟨d2, by simp [hd2], hp⟩

theorem parseRDRs_archive (V : Variant) (o : BsaWriterOptionsV10X)
    (dirs : List BsaDirSource)
    (hfc : ∀ d ∈ dirs, d.files.length < 2 ^ 32) :
    parseRDRs V dirs.length ((archiveBytes V o dirs).drop offsetAfterHeader) =
      some (finalDRs V o (tfnlOf o dirs) dirs (contentBase V dirs),
        finalBlocksBytes V o dirs (dataBase V o dirs) ++
          (((poolNames o dirs).map zWrite).flatten ++ allDataBytes V o dirs)) := by
  have hdrop : (archiveBytes V o dirs).drop offsetAfterHeader =
      finalDRsBytes V o (tfnlOf o dirs) dirs (contentBase V dirs) ++
        (finalBlocksBytes V o dirs (dataBase V o dirs) ++
          (((poolNames o dirs).map zWrite).flatten ++ allDataBytes V o dirs)) := by
    rw [archive_split8, ← List.append_assoc]
    exact drop_append_of_length _ _ offsetAfterHeader
      (by simp [magicBytes, u32le, rawHeaderBytes_length, offsetAfterHeader])
  rw [hdrop, finalDRsBytes_eq_flatten,
    show dirs.length = (finalDRs V o (tfnlOf o dirs) dirs (contentBase V dirs)).length
      from (finalDRs_length V o _ dirs _).symm]
  apply parseRDRs_concat
  intro r hr
  obtain ⟨d, hd, h1, h2, h3⟩ := finalDRs_mem V o _ dirs _ r hr
  refine ⟨?_, ?_, h3⟩
  · rw [h1]
    exact hashV10X_lt d.name
  · rw [h2]
    exact hfc d hd

theorem blocksOf_length_named (o : BsaWriterOptionsV10X) (dirs : List BsaDirSource)
    (hflag : o.has includesDirNames = true) :
    (blocksOf o dirs).length =
      ((dirs.map (fun d => d.name.length + 1)).sum + dirs.length) +
        16 * (dirs.map (fun d => d.files.length)).sum := by
  induction dirs with
  | nil => simp [blocksOf]
  | cons d t ih =>
    simp only [blocksOf, List.map_cons, List.flatten_cons, List.length_append,
      List.sum_cons, List.length_cons] at ih ⊢
    rw [ih, dcrWrite_length]
    simp only [contentOf, hflag, if_true]
    simp only [List.length_map, lowerStr_length]
    ring

theorem poolNames_length (o : BsaWriterOptionsV10X) (dirs : List BsaDirSource)
    (hflag : o.has includesFileNames = true) :
    (poolNames o dirs).length = (dirs.map (fun d => d.files.length)).sum := by
  unfold poolNames
  rw [if_pos hflag]
  induction dirs with
  | nil => simp
  | cons d t ih => simp [ih]

theorem poolNames_no_nul (o : BsaWriterOptionsV10X) (dirs : List BsaDirSource)
    (hnn : ∀ d ∈ dirs, ∀ f ∈ d.files, (0 : Nat) ∉ f.name) :
    ∀ s ∈ poolNames o dirs, (0 : Nat) ∉ s := by
  intro s hs
  unfold poolNames at hs
  by_cases hflag : o.has includesFileNames = true
  · rw [if_pos hflag] at hs
    simp only [List.mem_flatten, List.mem_map] at hs
    obtain ⟨l, ⟨d, hd, hl⟩, hsl⟩ := hs
    rw [← hl] at hsl
    simp only [List.mem_map] at hsl
    obtain ⟨f, hf, hfs⟩ := hsl
    rw [← hfs, zero_mem_lowerStr]
    exact hnn d hd f hf
  · rw [if_neg hflag] at hs
    simp at hs

theorem readFileNames_archive (V : Variant) (o : BsaWriterOptionsV10X)
    (dirs : List BsaDirSource)
    (hflagF : (headerOf o dirs).has includesFileNames = true)
    (hflagD : (headerOf o dirs).has includesDirNames = true)
    (hflagDo : o.has includesDirNames = true)
    (hflagFo : o.has includesFileNames = true)
    (hnn : ∀ d ∈ dirs, ∀ f ∈ d.files, (0 : Nat) ∉ f.name) :
    readFileNames V (headerOf o dirs) (archiveBytes V o dirs) =
      some ((poolNames o dirs).map (fun n => (hashV10X n, n))) := by
  unfold readFileNames
  rw [if_pos hflagF]
  have hoff : offsetFileNames V (headerOf o dirs) = poolBase V o dirs := by
    unfold offsetFileNames poolBase contentBase offsetAfterHeader
    unfold HeaderV10X.effectiveTotalDirNameLen
    rw [if_pos hflagD]
    rw [blocksOf_length_named o dirs hflagDo, phBytes_length]
    unfold headerOf
    simp only []
    rw [if_pos hflagDo]
    ring
  have hdrop : (archiveBytes V o dirs).drop (poolBase V o dirs) =
      ((poolNames o dirs).map zWrite).flatten ++ allDataBytes V o dirs := by
    rw [archive_split8, ← List.append_assoc, ← List.append_assoc,
      ← List.append_assoc]
    apply drop_append_of_length
    unfold poolBase contentBase
    rw [← finalBlocksBytes_length V o dirs (dataBase V o dirs)]
    simp only [List.length_append, List.length_cons, List.length_nil,
      magicBytes, u32le, rawHeaderBytes_length, finalDRsBytes_length,
      phBytes_length]
  rw [hoff, hdrop]
  have hcount : (headerOf o dirs).fileCount = (poolNames o dirs).length := by
    unfold headerOf
    simp only []
    rw [poolNames_length o dirs hflagFo]
  rw [hcount, parseZStrings_concat _ _ (poolNames_no_nul o dirs hnn)]
  rfl

theorem lor_lt_two_pow {x y n : Nat} (hx : x < 2 ^ n) (hy : y < 2 ^ n) :
    x ||| y < 2 ^ n :=
  Nat.bitwise_lt hx hy

theorem finalFRs_mem (V : Variant) (o : BsaWriterOptionsV10X) (dir : BsaDirSource)
    (files : List BsaFileSource) (pos : Nat) :
    ∀ r ∈ finalFRs V o dir files pos,
      r.nameHash < 2 ^ 64 ∧ r.size < 2 ^ 32 ∧ r.offset < 2 ^ 32 := by
  induction files generalizing pos with
  | nil => simp [finalFRs]
  | cons f t ih =>
    intro r hr
    simp only [finalFRs, List.mem_cons] at hr
    cases hr with
    | inl he =>
      rw [he]
      refine ⟨hashV10X_lt f.name, ?_, Nat.mod_lt _ (by norm_num)⟩
      apply lor_lt_two_pow
      · unfold placeFR
        split <;> norm_num
      · exact Nat.mod_lt _ (by norm_num)
    | inr ht => exact ih _ r ht

theorem mapM_readDir (V : Variant) (o : BsaWriterOptionsV10X)
    (dirs : List BsaDirSource) (names : List (Nat × List Nat))
    (hHf : (headerOf o dirs).has includesFileNames = true)
    (hflagDo : o.has includesDirNames = true) :
    ∀ (t : List BsaDirSource) (base dataPos : Nat) (rest : List Nat),
    (archiveBytes V o dirs).drop base =
      finalBlocksBytes V o t dataPos ++ rest →
    (∀ d ∈ t, d.files.length < 2 ^ 32) →
    base + (finalBlocksBytes V o t dataPos).length + tfnlOf o dirs < 2 ^ 32 →
    (finalDRs V o (tfnlOf o dirs) t base).mapM
        (readDir V (headerOf o dirs) names (archiveBytes V o dirs)) =
      some (expectedDirs V o (headerOf o dirs) names t dataPos) := by
  intro t
  induction t with
  | nil =>
    intro base dataPos rest hsub hfc hb
    simp [finalDRs, expectedDirs]
    rfl
  | cons d tt ih =>
    intro base dataPos rest hsub hfc hb
    have hblk : finalBlocksBytes V o (d :: tt) dataPos =
        dcrWrite (finalContentOf V o d dataPos) ++
          finalBlocksBytes V o tt (dataPos + (dirDataBytes V o d).length) := rfl
    have hboff : base + tfnlOf o dirs < 2 ^ 32 := by
      have := hb
      omega
    have hone : readDir V (headerOf o dirs) names (archiveBytes V o dirs)
        { placeDR d with offset := (base + tfnlOf o dirs) % 2 ^ 32 } =
        some { hash := hashV10X d.name
               name := (finalContentOf V o d dataPos).name
               files := (finalFRs V o d d.files dataPos).map
                 (toFile (headerOf o dirs) names) } := by
      unfold readDir
      have hofftf : (base + tfnlOf o dirs) % 2 ^ 32 -
          (headerOf o dirs).totalFileNameLength = base := by
        rw [Nat.mod_eq_of_lt hboff]
        have htt : (headerOf o dirs).totalFileNameLength = tfnlOf o dirs := rfl
        rw [htt]
        omega
      simp only [hHf]
      rw [show ({ placeDR d with
          offset := (base + tfnlOf o dirs) % 2 ^ 32 } : DirRecord).offset -
          (headerOf o dirs).totalFileNameLength = base from hofftf]
      rw [hsub, hblk, List.append_assoc]
      have hpd : ({ placeDR d with
          offset := (base + tfnlOf o dirs) % 2 ^ 32 } : DirRecord).fileCount =
          d.files.length := rfl
      rw [hpd, parseDirContentRecord_final V o d dataPos _ hflagDo
        (finalFRs_mem V o d d.files dataPos)]
      rfl
    have hsub2 : (archiveBytes V o dirs).drop
        (base + (dcrWrite (contentOf o d)).length) =
        finalBlocksBytes V o tt (dataPos + (dirDataBytes V o d).length) ++ rest := by
      have hd2 : (archiveBytes V o dirs).drop
          (base + (dcrWrite (contentOf o d)).length) =
          ((archiveBytes V o dirs).drop base).drop
            (dcrWrite (contentOf o d)).length := by
        rw [List.drop_drop]
      rw [hd2, hsub, hblk]
      rw [← finalContentOf_dcr_length V o d dataPos, List.append_assoc]
      exact drop_append_of_length _ _ _ rfl
    have hfc2 : ∀ x ∈ tt, x.files.length < 2 ^ 32 :=
      fun x hx => hfc x (by simp [hx])
    have hb2 : base + (dcrWrite (contentOf o d)).length +
        (finalBlocksBytes V o tt (dataPos + (dirDataBytes V o d).length)).length +
        tfnlOf o dirs < 2 ^ 32 := by
      rw [hblk] at hb
      simp only [List.length_append] at hb
      rw [finalContentOf_dcr_length] at hb
      omega
    simp only [finalDRs, List.mapM_cons, hone, Option.bind_eq_bind,
      Option.some_bind]
    rw [ih (base + (dcrWrite (contentOf o d)).length)
      (dataPos + (dirDataBytes V o d).length) rest hsub2 hfc2 hb2]
    simp [expectedDirs]

theorem list_archive (V : Variant) (o : BsaWriterOptionsV10X)
    (dirs : List BsaDirSource)
    (hfl : o.archiveFlags < 2 ^ 32 ∧ o.archiveFlags &&& V.flagMask = o.archiveFlags)
    (hff : o.fileFlags < 2 ^ 16 ∧ o.fileFlags &&& 0x1FF = o.fileFlags)
    (hn : dirs.length < 2 ^ 32)
    (hF : (dirs.map (fun d => d.files.length)).sum < 2 ^ 32)
    (htd : (headerOf o dirs).totalDirNameLength < 2 ^ 32)
    (htf : tfnlOf o dirs < 2 ^ 32)
    (hfc : ∀ d ∈ dirs, d.files.length < 2 ^ 32)
    (hflagF : (headerOf o dirs).has includesFileNames = true)
    (hflagD : (headerOf o dirs).has includesDirNames = true)
    (hflagDo : o.has includesDirNames = true)
    (hflagFo : o.has includesFileNames = true)
    (hnn : ∀ d ∈ dirs, ∀ f ∈ d.files, (0 : Nat) ∉ f.name)
    (hdb : dataBase V o dirs < 2 ^ 32) :
    list V (archiveBytes V o dirs) =
      some (expectedDirs V o (headerOf o dirs)
        ((poolNames o dirs).map (fun n => (hashV10X n, n))) dirs
        (dataBase V o dirs)) := by
  unfold list
  rw [readFixedHeader_archive V o dirs hfl hff hn hF htd htf]
  dsimp only
  rw [show (headerOf o dirs).dirCount = dirs.length from rfl,
    parseRDRs_archive V o dirs hfc]
  dsimp only
  rw [readFileNames_archive V o dirs hflagF hflagD hflagDo hflagFo hnn]
  dsimp only
  apply mapM_readDir V o dirs _ hflagF hflagDo dirs (contentBase V dirs)
    (dataBase V o dirs)
    (((poolNames o dirs).map zWrite).flatten ++ allDataBytes V o dirs)
  · rw [archive_split8, ← List.append_assoc, ← List.append_assoc]
    apply drop_append_of_length
    simp only [List.length_append, List.length_cons, List.length_nil,
      magicBytes, u32le, rawHeaderBytes_length, finalDRsBytes_length,
      contentBase, phBytes_length]
  · exact hfc
  · rw [finalBlocksBytes_length]
    have : contentBase V dirs + (blocksOf o dirs).length + tfnlOf o dirs =
        dataBase V o dirs := rfl
    rw [this]
    exact hdb

theorem mapGet_pool (names : List (List Nat)) (x : List Nat) (hx : x ∈ names)
    (huniq : ∀ y ∈ names, hashV10X y = hashV10X x → y = x) :
    mapGet (names.map (fun n => (hashV10X n, n))) (hashV10X x) = some x := by
  unfold mapGet
  have hmem : (hashV10X x, x) ∈ (names.map (fun n => (hashV10X n, n))).reverse := by
    rw [List.mem_reverse, List.mem_map]
    exact ⟨x, hx, rfl⟩
  have hsome : ((names.map (fun n => (hashV10X n, n))).reverse.find?
      (fun p => p.1 == hashV10X x)).isSome := by
    rw [List.find?_isSome]
    exact ⟨(hashV10X x, x), hmem, by simp⟩
  obtain ⟨a, ha⟩ := Option.isSome_iff_exists.mp hsome
  have hpa := List.find?_some ha
  simp only [beq_iff_eq] at hpa
  have hamem : a ∈ (names.map (fun n => (hashV10X n, n))).reverse :=
    List.mem_of_find?_eq_some ha
  rw [List.mem_reverse, List.mem_map] at hamem
  obtain ⟨y, hy, hya⟩ := hamem
  have h1 : hashV10X y = hashV10X x := by
    rw [← hya] at hpa
    exact hpa
  have h2 : y = x := huniq y hy h1
  rw [ha]
  simp only [Option.map_some', Option.some.injEq]
  rw [← hya, h2]

theorem finalFRs_view (V : Variant) (o : BsaWriterOptionsV10X)
    (dir : BsaDirSource) (H : HeaderV10X) (names : List (Nat × List Nat)) :
    ∀ (files : List BsaFileSource) (pos : Nat),
    (∀ f ∈ files, mapGet names (hashV10X f.name) = some (lowerStr f.name)) →
    ((finalFRs V o dir files pos).map (toFile H names)).map
        (fun f => (f.hash, f.name)) =
      files.map (fun f => (hashV10X f.name, some (lowerStr f.name))) := by
  intro files
  induction files with
  | nil => intro pos hlook; rfl
  | cons f t ih =>
    intro pos hlook
    simp only [finalFRs, List.map_cons, List.cons.injEq]
    constructor
    · unfold toFile
      simp only []
      exact congrArg _ (hlook f (by simp))
    · exact ih _ (fun x hx => hlook x (by simp [hx]))

theorem treeView_expectedDirs (V : Variant) (o : BsaWriterOptionsV10X)
    (H : HeaderV10X) (names : List (Nat × List Nat))
    (hname : o.has includesDirNames = true) :
    ∀ (t : List BsaDirSource) (dataPos : Nat),
    (∀ d ∈ t, ∀ f ∈ d.files,
      mapGet names (hashV10X f.name) = some (lowerStr f.name)) →
    treeView (expectedDirs V o H names t dataPos) = srcTreeView t := by
  intro t
  induction t with
  | nil => intro dataPos hlook; rfl
  | cons d tt ih =>
    intro dataPos hlook
    simp only [expectedDirs, treeView, srcTreeView, List.map_cons,
      List.cons.injEq, Prod.mk.injEq]
    refine ⟨⟨?_, ?_⟩, ?_⟩
    · simp [finalContentOf, hname]
    · exact ⟨by simp [finalContentOf, hname], finalFRs_view V o d H names d.files dataPos
        (fun f hf => hlook d (by simp) f hf)⟩
    · have := ih (dataPos + (dirDataBytes V o d).length)
        (fun x hx f hf => hlook x (by simp [hx]) f hf)
      simpa [treeView, srcTreeView] using this

/-! ## Putting the round trip together -/

theorem rdrSize_ge (V : Variant) : 16 ≤ rdrSize V := by
  unfold rdrSize
  split <;> norm_num

theorem archive_length_parts (V : Variant) (o : BsaWriterOptionsV10X)
    (dirs : List BsaDirSource) :
    (archiveBytes V o dirs).length =
      36 + dirs.length * rdrSize V + (blocksOf o dirs).length + tfnlOf o dirs +
        (allDataBytes V o dirs).length := by
  unfold archiveBytes
  simp only [List.length_append, List.length_cons, List.length_nil, magicBytes,
    u32le, rawHeaderBytes_length, finalDRsBytes_length, phBytes_length,
    finalBlocksBytes_length, pool_length]

theorem dataBase_eq (V : Variant) (o : BsaWriterOptionsV10X)
    (dirs : List BsaDirSource) :
    dataBase V o dirs =
      36 + dirs.length * rdrSize V + (blocksOf o dirs).length + tfnlOf o dirs := by
  unfold dataBase poolBase contentBase
  rw [phBytes_length]

theorem mem_poolNames (o : BsaWriterOptionsV10X) (dirs : List BsaDirSource)
    (hflag : o.has includesFileNames = true) (d : BsaDirSource) (hd : d ∈ dirs)
    (f : BsaFileSource) (hf : f ∈ d.files) :
    lowerStr f.name ∈ poolNames o dirs := by
  unfold poolNames
  rw [if_pos hflag]
  rw [List.mem_flatten]
  exact ⟨d.files.map (fun g => lowerStr g.name),
    List.mem_map_of_mem _ hd, List.mem_map_of_mem _ hf⟩

theorem poolNames_mem (o : BsaWriterOptionsV10X) (dirs : List BsaDirSource) :
    ∀ y ∈ poolNames o dirs, ∃ d ∈ dirs, ∃ g ∈ d.files, y = lowerStr g.name := by
  intro y hy
  unfold poolNames at hy
  by_cases hflag : o.has includesFileNames = true
  · rw [if_pos hflag, List.mem_flatten] at hy
    obtain ⟨l, hl, hyl⟩ := hy
    rw [List.mem_map] at hl
    obtain ⟨d, hd, hld⟩ := hl
    rw [← hld, List.mem_map] at hyl
    obtain ⟨g, hg, hgy⟩ := hyl
    exact ⟨d, hd, g, hg, hgy.symm⟩
  · rw [if_neg hflag] at hy
    simp at hy

/-- The general write-then-list round trip: under any option set with
both name flags set, no embedded names, and well-formed input, the
writer produces `archiveBytes` and the reader lists the `expectedDirs`
tree. -/
theorem roundtrip_list_general (V : Variant) (o : BsaWriterOptionsV10X)
    (dirs : List BsaDirSource)
    (hmask : o.archiveFlags &&& V.flagMask = o.archiveFlags)
    (hflb : o.archiveFlags < 2 ^ 32)
    (hffm : o.fileFlags &&& 0x1FF = o.fileFlags)
    (hffb : o.fileFlags < 2 ^ 16)
    (hembV : o.hasEmbed V = false)
    (hsz : (archiveBytes V o dirs).length < 2 ^ 32)
    (hnn : ∀ d ∈ dirs, ∀ f ∈ d.files, (0 : Nat) ∉ f.name)
    (hbz : ∀ d ∈ dirs, d.name.length ≤ 254)
    (hflagDo : o.has includesDirNames = true)
    (hflagFo : o.has includesFileNames = true) :
    writeBsa V o dirs = some (archiveBytes V o dirs) ∧
    list V (archiveBytes V o dirs) =
      some (expectedDirs V o (headerOf o dirs)
        ((poolNames o dirs).map (fun n => (hashV10X n, n))) dirs
        (dataBase V o dirs)) := by
  have hflagF : (headerOf o dirs).has includesFileNames = true := by
    simp only [HeaderV10X.has, headerOf]
    simpa only [BsaWriterOptionsV10X.has] using hflagFo
  have hflagD : (headerOf o dirs).has includesDirNames = true := by
    simp only [HeaderV10X.has, headerOf]
    simpa only [BsaWriterOptionsV10X.has] using hflagDo
  have hwrite : writeBsa V o dirs = some (archiveBytes V o dirs) := by
    apply writeBsa_eq V o dirs
    · intro _ d hd f hf
      exact hnn d hd f hf
    · intro d hd _
      exact hbz d hd
    · intro d _ f _ hEm
      rw [hembV] at hEm
      cases hEm
  have hlen := archive_length_parts V o dirs
  have hbl := blocksOf_length_named o dirs hflagDo
  have hR := rdrSize_ge V
  have hn : dirs.length < 2 ^ 32 := by
    have h1 : dirs.length ≤ dirs.length * rdrSize V :=
      Nat.le_mul_of_pos_right _ (by omega)
    omega
  have hF : (dirs.map (fun d => d.files.length)).sum < 2 ^ 32 := by
    omega
  have htd : (headerOf o dirs).totalDirNameLength < 2 ^ 32 := by
    unfold headerOf
    simp only []
    rw [if_pos hflagDo]
    omega
  have htf : tfnlOf o dirs < 2 ^ 32 := by
    omega
  have hdb : dataBase V o dirs < 2 ^ 32 := by
    rw [dataBase_eq]
    omega
  have hfc : ∀ d ∈ dirs, d.files.length < 2 ^ 32 := by
    intro d hd
    have h1 : d.files.length ≤ (dirs.map (fun d => d.files.length)).sum :=
      List.le_sum_of_mem (List.mem_map_of_mem _ hd)
    omega
  exact ⟨hwrite, list_archive V o dirs ⟨hflb, hmask⟩ ⟨hffb, hffm⟩ hn hF htd htf
    hfc hflagF hflagD hflagDo hflagFo hnn hdb⟩

/-- C1: round-trip of the logical tree — for any input
directory-source list with well-formed names (no NUL bytes, directory
names short enough for a BZString, distinct lowercase names per
directory, collision-free hashes) written under the default options of
the v10X writer, with the resulting archive small enough for its
32-bit offsets, writing with `write_bsa` and reading back with
`list()` yields the same (hash, name, file-list) tree, names
lowercased. -/
theorem c1_roundtrip_tree (V : Variant) (dirs : List BsaDirSource)
    (hmask : 3 &&& V.flagMask = 3)
    (hembV : BsaWriterOptionsV10X.hasEmbed defaultOptions V = false)
    (hsz : (archiveBytes V defaultOptions dirs).length < 2 ^ 32)
    (hnn : ∀ d ∈ dirs, ∀ f ∈ d.files, (0 : Nat) ∉ f.name)
    (hbz : ∀ d ∈ dirs, d.name.length ≤ 254)
    (_hdist : ∀ d ∈ dirs, (d.files.map (fun f => lowerStr f.name)).Nodup)
    (hinj : ∀ d1 ∈ dirs, ∀ f ∈ d1.files, ∀ d2 ∈ dirs, ∀ g ∈ d2.files,
      hashV10X f.name = hashV10X g.name → lowerStr f.name = lowerStr g.name) :
    ∃ bs out, writeBsa V defaultOptions dirs = some bs ∧
      list V bs = some out ∧ treeView out = srcTreeView dirs := by
  have hflagFo : defaultOptions.has includesFileNames = true := rfl
  have hflagDo : defaultOptions.has includesDirNames = true := rfl
  obtain ⟨hwrite, hlist⟩ := roundtrip_list_general V defaultOptions dirs hmask
    (by decide) (by decide) (by decide) hembV hsz hnn hbz hflagDo hflagFo
  have hlook : ∀ d ∈ dirs, ∀ f ∈ d.files,
      mapGet ((poolNames defaultOptions dirs).map (fun n => (hashV10X n, n)))
        (hashV10X f.name) = some (lowerStr f.name) := by
    intro d hd f hf
    have hx := mem_poolNames defaultOptions dirs hflagFo d hd f hf
    have huniq : ∀ y ∈ poolNames defaultOptions dirs,
        hashV10X y = hashV10X (lowerStr f.name) → y = lowerStr f.name := by
      intro y hy hh
      obtain ⟨d2, hd2, g, hg, hyg⟩ := poolNames_mem defaultOptions dirs y hy
      rw [hyg, hashV10X_lowerStr, hashV10X_lowerStr] at hh
      rw [hyg]
      exact hinj d2 hd2 g hg d hd f hf hh
    have := mapGet_pool (poolNames defaultOptions dirs) (lowerStr f.name) hx huniq
    rw [hashV10X_lowerStr] at this
    exact this
  refine ⟨archiveBytes V defaultOptions dirs,
    expectedDirs V defaultOptions (headerOf defaultOptions dirs)
      ((poolNames defaultOptions dirs).map (fun n => (hashV10X n, n))) dirs
      (dataBase V defaultOptions dirs),
    hwrite, hlist, ?_⟩
  exact treeView_expectedDirs V defaultOptions _ _ hflagDo dirs _ hlook

/-- Witness for C1: the spec's S1 scenario — one directory `a` holding
one 4-byte file `b`, written and listed back through the v105 variant. -/
theorem c1_roundtrip_tree_witness :
    ∃ bs out,
      writeBsa (v105Var id) defaultOptions
          [⟨[97], [⟨[98], none, [0, 0, 0, 0]⟩]⟩] = some bs ∧
      list (v105Var id) bs = some out ∧
      treeView out = srcTreeView [⟨[97], [⟨[98], none, [0, 0, 0, 0]⟩]⟩] :=
  c1_roundtrip_tree (v105Var id) [⟨[97], [⟨[98], none, [0, 0, 0, 0]⟩]⟩]
    (by decide) (by decide) (by decide) (by decide) (by decide) (by decide)
    (by decide)

/-! ## Bit lemmas for the size field -/

theorem or_small_and_mask (init cnt : Nat)
    (hinit : init = 0x40000000 ∨ init = 0) (hcnt : cnt < 2 ^ 30) :
    (init ||| cnt) &&& (0xffffffff ^^^ 0x40000000) = cnt := by
  have h30 : (0x40000000 : Nat) = 2 ^ 30 := by norm_num
  have hff : (0xffffffff : Nat) = 2 ^ 32 - 1 := by norm_num
  apply Nat.eq_of_testBit_eq
  intro i
  rw [Nat.testBit_and, Nat.testBit_lor, hff, h30, Nat.testBit_xor,
    Nat.testBit_two_pow_sub_one, Nat.testBit_two_pow]
  have hcnti : ∀ j, 30 ≤ j → cnt.testBit j = false := fun j hj =>
    Nat.testBit_lt_two_pow
      (lt_of_lt_of_le hcnt (Nat.pow_le_pow_right (by norm_num) hj))
  have hinitbit : init.testBit i = decide (30 = i) ∨ init.testBit i = false := by
    cases hinit with
    | inl he =>
      left
      rw [he, h30, Nat.testBit_two_pow]
    | inr he =>
      right
      rw [he]
      exact Nat.zero_testBit i
  rcases Nat.lt_or_ge i 30 with h1 | h1
  · have hd1 : decide (i < 32) = true := by
      simp only [decide_eq_true_eq]
      omega
    have hd2 : decide (30 = i) = false := by
      simp only [decide_eq_false_iff_not]
      omega
    have hinit0 : init.testBit i = false := by
      cases hinitbit with
      | inl he => rw [he, hd2]
      | inr he => exact he
    rw [hd1, hd2, hinit0]
    simp
  · have hc0 : cnt.testBit i = false := hcnti i h1
    rcases Nat.eq_or_lt_of_le h1 with h2 | h2
    · have hd1 : decide (i < 32) = true := by
        simp only [decide_eq_true_eq]
        omega
      have hd2 : decide (30 = i) = true := by
        simp only [decide_eq_true_eq]
        omega
      rw [hd1, hd2, hc0]
      simp
    · have hd2 : decide (30 = i) = false := by
        simp only [decide_eq_false_iff_not]
        omega
      have hinit0 : init.testBit i = false := by
        cases hinitbit with
        | inl he => rw [he, hd2]
        | inr he => exact he
      rw [hc0, hinit0]
      simp

theorem or_small_and_bit30 (init cnt : Nat)
    (hinit : init = 0x40000000 ∨ init = 0) (hcnt : cnt < 2 ^ 30) :
    (init ||| cnt) &&& 0x40000000 = init := by
  have h30 : (0x40000000 : Nat) = 2 ^ 30 := by norm_num
  apply Nat.eq_of_testBit_eq
  intro i
  rw [Nat.testBit_and, Nat.testBit_lor, h30, Nat.testBit_two_pow]
  have hcnti : ∀ j, 30 ≤ j → cnt.testBit j = false := fun j hj =>
    Nat.testBit_lt_two_pow
      (lt_of_lt_of_le hcnt (Nat.pow_le_pow_right (by norm_num) hj))
  by_cases h2 : 30 = i
  · have hd2 : decide (30 = i) = true := by
      simp only [decide_eq_true_eq]
      omega
    have hc0 : cnt.testBit i = false := hcnti i (by omega)
    rw [hd2, hc0]
    cases hinit with
    | inl he =>
      rw [he, h30, Nat.testBit_two_pow, hd2]
      simp
    | inr he =>
      rw [he]
      simp [Nat.zero_testBit]
  · have hd2 : decide (30 = i) = false := by
      simp only [decide_eq_false_iff_not]
      omega
    rw [hd2]
    cases hinit with
    | inl he =>
      rw [he, h30, Nat.testBit_two_pow, hd2]
      simp
    | inr he =>
      rw [he]
      simp [Nat.zero_testBit]

theorem isCompressionBitSet_or (hsh off init cnt : Nat)
    (hinit : init = 0x40000000 ∨ init = 0) (hcnt : cnt < 2 ^ 30) :
    (FileRecord.mk hsh (init ||| cnt % 2 ^ 32) off).isCompressionBitSet =
      (init == 0x40000000) := by
  have hc : cnt % 2 ^ 32 = cnt := Nat.mod_eq_of_lt (lt_trans hcnt (by norm_num))
  unfold FileRecord.isCompressionBitSet
  simp only [hc]
  rw [or_small_and_bit30 init cnt hinit hcnt]

theorem realSize_or (hsh off init cnt : Nat)
    (hinit : init = 0x40000000 ∨ init = 0) (hcnt : cnt < 2 ^ 30) :
    (FileRecord.mk hsh (init ||| cnt % 2 ^ 32) off).realSize = cnt := by
  have hc : cnt % 2 ^ 32 = cnt := Nat.mod_eq_of_lt (lt_trans hcnt (by norm_num))
  unfold FileRecord.realSize
  simp only [hc]
  exact or_small_and_mask init cnt hinit hcnt

/-! ## Compression override -/

theorem placeFR_size_cases (o : BsaWriterOptionsV10X) (f : BsaFileSource) :
    (placeFR o f).size = 0x40000000 ∨ (placeFR o f).size = 0 := by
  unfold placeFR
  simp only []
  split
  · left
    rfl
  · right
    rfl

theorem placeFR_size_beq (o : BsaWriterOptionsV10X) (f : BsaFileSource) :
    ((placeFR o f).size == 0x40000000) =
      (f.compressed == some (!o.has isCompressedByDefault)) := by
  unfold placeFR
  simp only []
  split
  case isTrue h => simp [h]
  case isFalse h => simp [h]

theorem toFile_finalFR_compressed (V : Variant) (o : BsaWriterOptionsV10X)
    (f : BsaFileSource) (H : HeaderV10X) (names : List (Nat × List Nat))
    (pos : Nat)
    (hH : H.has isCompressedByDefault = o.has isCompressedByDefault)
    (hcnt : cntOf V o f < 2 ^ 30) :
    (toFile H names
        { placeFR o f with offset := pos % 2 ^ 32,
                           size := (placeFR o f).size |||
                             cntOf V o f % 2 ^ 32 }).compressed =
      f.compressed.getD (o.has isCompressedByDefault) := by
  have hbit : ({ placeFR o f with offset := pos % 2 ^ 32,
                                  size := (placeFR o f).size |||
                                    cntOf V o f % 2 ^ 32 } :
        FileRecord).isCompressionBitSet = ((placeFR o f).size == 0x40000000) :=
    isCompressionBitSet_or _ _ _ _ (placeFR_size_cases o f) hcnt
  unfold toFile
  simp only [hH, hbit, placeFR_size_beq]
  cases hb0 : o.has isCompressedByDefault with
  | true =>
    rcases hfc : f.compressed with _ | c
    · simp
    · cases c <;> simp
  | false =>
    rcases hfc : f.compressed with _ | c
    · simp
    · cases c <;> simp

theorem finalFRs_compressed (V : Variant) (o : BsaWriterOptionsV10X)
    (dir : BsaDirSource) (H : HeaderV10X) (names : List (Nat × List Nat))
    (hH : H.has isCompressedByDefault = o.has isCompressedByDefault) :
    ∀ (files : List BsaFileSource) (pos : Nat),
    (∀ f ∈ files, cntOf V o f < 2 ^ 30) →
    ((finalFRs V o dir files pos).map (toFile H names)).map
        (fun f => f.compressed) =
      files.map (fun f => f.compressed.getD (o.has isCompressedByDefault)) := by
  intro files
  induction files with
  | nil => intro pos hcnt; rfl
  | cons f t ih =>
    intro pos hcnt
    simp only [finalFRs, List.map_cons, List.cons.injEq]
    exact ⟨toFile_finalFR_compressed V o f H names pos hH (hcnt f (by simp)),
      ih _ (fun x hx => hcnt x (by simp [hx]))⟩

theorem expectedDirs_compressed (V : Variant) (o : BsaWriterOptionsV10X)
    (H : HeaderV10X) (names : List (Nat × List Nat))
    (hH : H.has isCompressedByDefault = o.has isCompressedByDefault) :
    ∀ (t : List BsaDirSource) (dataPos : Nat),
    (∀ d ∈ t, ∀ f ∈ d.files, cntOf V o f < 2 ^ 30) →
    (expectedDirs V o H names t dataPos).map
        (fun d => d.files.map (fun f => f.compressed)) =
      t.map (fun d => d.files.map
        (fun f => f.compressed.getD (o.has isCompressedByDefault))) := by
  intro t
  induction t with
  | nil => intro dataPos hcnt; rfl
  | cons d tt ih =>
    intro dataPos hcnt
    simp only [expectedDirs, List.map_cons, List.cons.injEq]
    constructor
    · exact finalFRs_compressed V o d H names hH d.files dataPos
        (fun f hf => hcnt d (by simp) f hf)
    · exact ih _ (fun x hx f hf => hcnt x (by simp [hx]) f hf)

/-- C2: compression-override correctness — for every option set (in
particular for both values of the `CompressedArchive` default) with the
name flags set and no embedded names, and every well-formed input whose
payload counts fit below bit 30, the compressed-ness each listed file
reports after a write/read round trip equals what the writer was asked
to produce: the per-file override if present, else the archive
default. -/
theorem c2_compression_override (V : Variant) (o : BsaWriterOptionsV10X)
    (dirs : List BsaDirSource)
    (hmask : o.archiveFlags &&& V.flagMask = o.archiveFlags)
    (hflb : o.archiveFlags < 2 ^ 32)
    (hffm : o.fileFlags &&& 0x1FF = o.fileFlags)
    (hffb : o.fileFlags < 2 ^ 16)
    (hembV : o.hasEmbed V = false)
    (hsz : (archiveBytes V o dirs).length < 2 ^ 32)
    (hnn : ∀ d ∈ dirs, ∀ f ∈ d.files, (0 : Nat) ∉ f.name)
    (hbz : ∀ d ∈ dirs, d.name.length ≤ 254)
    (hflagDo : o.has includesDirNames = true)
    (hflagFo : o.has includesFileNames = true)
    (hcnt : ∀ d ∈ dirs, ∀ f ∈ d.files, cntOf V o f < 2 ^ 30) :
    ∃ bs out, writeBsa V o dirs = some bs ∧ list V bs = some out ∧
      out.map (fun d => d.files.map (fun f => f.compressed)) =
        dirs.map (fun d => d.files.map
          (fun f => f.compressed.getD (o.has isCompressedByDefault))) := by
  obtain ⟨hwrite, hlist⟩ := roundtrip_list_general V o dirs hmask hflb hffm hffb
    hembV hsz hnn hbz hflagDo hflagFo
  have hH : (headerOf o dirs).has isCompressedByDefault =
      o.has isCompressedByDefault := by
    simp only [HeaderV10X.has, headerOf, BsaWriterOptionsV10X.has]
  refine ⟨archiveBytes V o dirs, _, hwrite, hlist, ?_⟩
  exact expectedDirs_compressed V o (headerOf o dirs)
    ((poolNames o dirs).map (fun n => (hashV10X n, n))) hH dirs
    (dataBase V o dirs) hcnt

/-- Witness for C2: one directory with a `compressed = some false`
override written into an archive whose `CompressedArchive` default is
set (flags `0x7`), plus an unmarked file that follows the default. -/
theorem c2_compression_override_witness :
    ∃ (bs : List Nat) (out : List BsaDir),
      writeBsa (v105Var id) (⟨7, 0⟩ : BsaWriterOptionsV10X)
          ([⟨[97], [⟨[98], some false, [1, 2]⟩, ⟨[99], none, [3]⟩]⟩] :
            List BsaDirSource) = some bs ∧
      list (v105Var id) bs = some out ∧
      out.map (fun d => d.files.map (fun f => f.compressed)) =
        ([⟨[97], [⟨[98], some false, [1, 2]⟩, ⟨[99], none, [3]⟩]⟩] :
            List BsaDirSource).map
          (fun d => d.files.map (fun f => f.compressed.getD
            ((⟨7, 0⟩ : BsaWriterOptionsV10X).has isCompressedByDefault))) :=
  c2_compression_override (v105Var id) (⟨7, 0⟩ : BsaWriterOptionsV10X)
    ([⟨[97], [⟨[98], some false, [1, 2]⟩, ⟨[99], none, [3]⟩]⟩] :
      List BsaDirSource)
    (by decide) (by decide) (by decide) (by decide) (by decide) (by decide)
    (by decide) (by decide) (by decide) (by decide) (by decide)

/-! ## The size field of a file record -/

/-- Counterexample for C5: the source masks `size` with
`0xffffffff ^ 0x40000000 = 0xBFFFFFFF`, which keeps bit 31, so for
`size = 2^31` the claimed `size & 0x3FFFFFFF` (which would be 0)
differs from `real_size`. -/
theorem c5_counterexample :
    ¬ ((FileRecord.mk 0 (2 ^ 31) 0).realSize = 2 ^ 31 &&& 0x3FFFFFFF) := by
  decide

/-- C5 (amended): for every 32-bit `size` value,
`real_size(size) = size & 0xBFFFFFFF` — only bit 30 is cleared, bit 31
is kept — and the compression-override flag is bit 30,
`(size >> 30) & 1`. -/
theorem c5_realsize_and_flag (s : Nat) (_hs : s < 2 ^ 32) :
    (FileRecord.mk 0 s 0).realSize = s &&& 0xBFFFFFFF ∧
    ((FileRecord.mk 0 s 0).isCompressionBitSet = true ↔
      (s >>> 30) &&& 1 = 1) := by
  constructor
  · unfold FileRecord.realSize
    simp only []
    rw [show (0xffffffff ^^^ 0x40000000 : Nat) = 0xBFFFFFFF from by decide]
  · unfold FileRecord.isCompressionBitSet
    simp only []
    have e : (0x40000000 : Nat) = 2 ^ 30 := by norm_num
    rw [e, Nat.and_two_pow, Nat.shiftRight_eq_div_pow, Nat.and_one_is_mod]
    cases hb : s.testBit 30 with
    | true =>
      rw [Nat.testBit_to_div_mod] at hb
      simp only [decide_eq_true_eq] at hb
      simp [hb]
    | false =>
      rw [Nat.testBit_to_div_mod] at hb
      simp only [decide_eq_false_iff_not] at hb
      simp only [Bool.toNat_false, Nat.zero_mul]
      constructor
      · intro h
        simp at h
      · intro h
        exact absurd h hb

/-- Witness for C5: the amended statement at `size = 2^31`, the very
input on which the original claim fails. -/
theorem c5_realsize_and_flag_witness :
    (2 ^ 31 : Nat) < 2 ^ 32 ∧
    ((FileRecord.mk 0 (2 ^ 31) 0).realSize = 2 ^ 31 &&& 0xBFFFFFFF ∧
     ((FileRecord.mk 0 (2 ^ 31) 0).isCompressionBitSet = true ↔
       ((2 ^ 31) >>> 30) &&& 1 = 1)) :=
  ⟨by decide, c5_realsize_and_flag (2 ^ 31) (by decide)⟩

theorem c10_overflow_core (d : List Nat) (hd : d.length = 2 ^ 30) :
    ∃ r rs,
      finalFRs (v105Var id) defaultOptions ⟨[], []⟩ [⟨[], none, d⟩] 0 = r :: rs ∧
      2 ^ 30 ≤ cntOf (v105Var id) defaultOptions ⟨[], none, d⟩ ∧
      r.isCompressionBitSet ≠
        ((⟨[], none, d⟩ : BsaFileSource).compressed ==
          some (!defaultOptions.has isCompressedByDefault)) := by
  have hc : cntOf (v105Var id) defaultOptions ⟨[], none, d⟩ = d.length := rfl
  have hp : (placeFR defaultOptions ⟨[], none, d⟩).size = 0 := rfl
  refine ⟨FileRecord.mk
      (placeFR defaultOptions ⟨[], none, d⟩).nameHash
      ((placeFR defaultOptions ⟨[], none, d⟩).size |||
        cntOf (v105Var id) defaultOptions ⟨[], none, d⟩ % 2 ^ 32)
      (0 % 2 ^ 32), [], rfl, ?_, ?_⟩
  · rw [hc, hd]
  · have hbit : (FileRecord.mk
        (placeFR defaultOptions ⟨[], none, d⟩).nameHash
        ((placeFR defaultOptions ⟨[], none, d⟩).size |||
          cntOf (v105Var id) defaultOptions ⟨[], none, d⟩ % 2 ^ 32)
        (0 % 2 ^ 32)).isCompressionBitSet = true := by
      unfold FileRecord.isCompressionBitSet
      simp only []
      rw [hc, hd, hp]
      decide
    rw [hbit]
    show true ≠
      ((none : Option Bool) == some (!defaultOptions.has isCompressedByDefault))
    decide

/-- C10: in Pass C the on-disk `size` of every file record is the
bitwise OR of its Pass-B initialization (`0x40000000` iff the override
applies) with the payload byte count (as u32); for payloads below
`2^30`, bit 30 of the stored size is exactly the override decision and
clearing it recovers exactly the payload count — and there is a payload
of `2^30` bytes for which this guarantee fails. -/
theorem c10_size_field :
    (∀ (V : Variant) (o : BsaWriterOptionsV10X) (dir : BsaDirSource)
       (f : BsaFileSource) (t : List BsaFileSource) (pos : Nat),
       ∃ r rs, finalFRs V o dir (f :: t) pos = r :: rs ∧
         r.size = (placeFR o f).size ||| cntOf V o f % 2 ^ 32 ∧
         (cntOf V o f < 2 ^ 30 →
           (r.isCompressionBitSet =
             (f.compressed == some (!o.has isCompressedByDefault))) ∧
           r.realSize = cntOf V o f)) ∧
    (∃ (V : Variant) (o : BsaWriterOptionsV10X) (dir : BsaDirSource)
       (f : BsaFileSource) (pos : Nat) (r : FileRecord) (rs : List FileRecord),
       finalFRs V o dir [f] pos = r :: rs ∧ 2 ^ 30 ≤ cntOf V o f ∧
       r.isCompressionBitSet ≠
         (f.compressed == some (!o.has isCompressedByDefault))) := by
  constructor
  · intro V o dir f t pos
    refine ⟨FileRecord.mk (placeFR o f).nameHash
        ((placeFR o f).size ||| cntOf V o f % 2 ^ 32) (pos % 2 ^ 32),
      finalFRs V o dir t (pos + (dataBlockOf V o dir f).length), rfl, rfl,
      fun hcnt => ⟨?_, ?_⟩⟩
    · rw [isCompressionBitSet_or _ _ _ _ (placeFR_size_cases o f) hcnt]
      exact placeFR_size_beq o f
    · exact realSize_or _ _ _ _ (placeFR_size_cases o f) hcnt
  · obtain ⟨r, rs, h1, h2, h3⟩ :=
      c10_overflow_core (List.replicate (2 ^ 30) 0)
        (by rw [List.length_replicate])
    exact ⟨v105Var id, defaultOptions, ⟨[], []⟩,
      ⟨[], none, List.replicate (2 ^ 30) 0⟩, 0, r, rs, h1, h2, h3⟩

/-- Witness for C10: the universal half evaluated on a concrete small
file, the override marked and the payload three bytes. -/
theorem c10_size_field_witness :
    ∃ r rs,
      finalFRs (v105Var id) defaultOptions (⟨[], []⟩ : BsaDirSource)
          [⟨[98], some true, [1, 2, 3]⟩] 0 = r :: rs ∧
      r.size = (placeFR defaultOptions ⟨[98], some true, [1, 2, 3]⟩).size |||
        cntOf (v105Var id) defaultOptions ⟨[98], some true, [1, 2, 3]⟩ % 2 ^ 32 ∧
      r.isCompressionBitSet =
        (some true == some (!defaultOptions.has isCompressedByDefault)) ∧
      r.realSize = cntOf (v105Var id) defaultOptions ⟨[98], some true, [1, 2, 3]⟩ := by
  obtain ⟨r, rs, h1, h2, h3⟩ := c10_size_field.1 (v105Var id) defaultOptions
    (⟨[], []⟩ : BsaDirSource) ⟨[98], some true, [1, 2, 3]⟩ [] 0
  exact ⟨r, rs, h1, h2, (h3 (by decide)).1, (h3 (by decide)).2⟩

/-! ## The directory-name flag the reader consults -/

/-- C3 (code bug): with only `IncludeDirectoryNames` set (flags = 0x1),
the writer stores each directory's BZString name at the head of its
content block, but `read_dir` gates name reading on
`includes_file_names()` (not `includes_dir_names()`), so `list()`
parses no name and returns `None` for a directory whose name is in the
archive. -/
theorem c3_dir_name_flag_bug :
    writeBsa (v105Var id) (⟨1, 0⟩ : BsaWriterOptionsV10X)
        [⟨[97], [⟨[98], none, [5]⟩]⟩] =
      some (archiveBytes (v105Var id) (⟨1, 0⟩ : BsaWriterOptionsV10X)
        [⟨[97], [⟨[98], none, [5]⟩]⟩]) ∧
    (contentOf (⟨1, 0⟩ : BsaWriterOptionsV10X)
        ⟨[97], [⟨[98], none, [5]⟩]⟩).name = some (lowerStr [97]) ∧
    (list (v105Var id) (archiveBytes (v105Var id)
        (⟨1, 0⟩ : BsaWriterOptionsV10X) [⟨[97], [⟨[98], none, [5]⟩]⟩])).map
      (fun out => out.map (fun d => d.name)) = some [none] := by
  refine ⟨writeBsa_eq (v105Var id) ⟨1, 0⟩ [⟨[97], [⟨[98], none, [5]⟩]⟩]
    (by decide) (by decide) (by decide), rfl, ?_⟩
  decide

/-! ## Extraction payload bounds -/

theorem take_append_len_add (a b : List Nat) (i : Nat) :
    (a ++ b).take (a.length + i) = a ++ b.take i := by
  rw [List.take_append_eq_append_take, List.take_of_length_le (by omega)]
  have hi : a.length + i - a.length = i := by omega
  rw [hi]

/-- Counterexample for C4: for a compressed file of stored size 8, the
sub-reader handed to the codec is limited to 8 bytes, not the claimed
`real_size - 4 = 4`. -/
theorem c4_counterexample :
    ¬ ((extract (v105Var id) defaultHeader
          (⟨0, none, true, 36, 8⟩ : BsaFile) []).map ExtractPlan.takeLimit =
        some (8 - 4)) := by
  decide

/-- C4 (amended): `extract` limits the sub-reader to `file.size`
(`real_size`) in both branches. Uncompressed: after skipping any
embedded name, exactly `real_size` bytes are copied — no embedded-name
overhead is subtracted, the stored size already excludes it.
Compressed: the codec reads from just past the 4-byte prefix but its
`take` limit stays `real_size`, so up to 4 bytes beyond the compressed
payload are exposed to it. -/
theorem c4_extract_payload (V : Variant) (h : HeaderV10X) (f : BsaFile)
    (pre nm data post : List Nat) (n : Nat)
    (_hnm : nm.length ≤ 255) (hoff : f.offset = pre.length) :
    (f.compressed = false → h.hasEmbed V = true → f.size = data.length →
      ∃ p, extract V h f (pre ++ bWrite nm ++ data ++ post) = some p ∧
        p.takeLimit = f.size ∧
        extractInput p (pre ++ bWrite nm ++ data ++ post) = data) ∧
    (f.compressed = true → h.hasEmbed V = false → f.size = 4 + data.length →
      ∃ p, extract V h f (pre ++ u32le n ++ data ++ post) = some p ∧
        p.takeLimit = f.size ∧
        extractInput p (pre ++ u32le n ++ data ++ post) = data ++ post.take 4) := by
  constructor
  · intro hc he hsz
    have hdrop : (pre ++ bWrite nm ++ data ++ post).drop f.offset =
        nm.length :: (nm ++ (data ++ post)) := by
      rw [hoff, List.append_assoc, List.append_assoc,
        drop_append_of_length pre _ pre.length rfl]
      rfl
    refine ⟨⟨f.offset + 1 + nm.length, f.size, false⟩, ?_, rfl, ?_⟩
    · unfold extract
      rw [he]
      simp only [if_true]
      rw [hdrop]
      simp only [parseU8, Option.map_some', hc]
      rfl
    · unfold extractInput
      simp only []
      have hsplit : pre ++ bWrite nm ++ data ++ post =
          (pre ++ bWrite nm) ++ (data ++ post) := by
        simp [List.append_assoc]
      rw [hsplit, hoff,
        drop_append_of_length (pre ++ bWrite nm) _
          (pre.length + 1 + nm.length) (by simp [bWrite]; omega),
        hsz, List.take_left]
  · intro hc he hsz
    refine ⟨⟨f.offset + 4, f.size, true⟩, ?_, rfl, ?_⟩
    · unfold extract
      rw [he]
      simp only [if_false, hc]
      rfl
    · unfold extractInput
      simp only []
      have hsplit : pre ++ u32le n ++ data ++ post =
          (pre ++ u32le n) ++ (data ++ post) := by
        simp [List.append_assoc]
      rw [hsplit, hoff,
        drop_append_of_length (pre ++ u32le n) _ (pre.length + 4)
          (by simp [u32le]),
        hsz, show 4 + data.length = data.length + 4 from by omega,
        take_append_len_add]

/-- Witness for C4: the uncompressed branch at a concrete archive slice
with an embedded one-byte name. -/
theorem c4_extract_payload_witness :
    ([99] : List Nat).length ≤ 255 ∧
    (⟨0, none, false, 3, 2⟩ : BsaFile).offset = ([9, 9, 9] : List Nat).length ∧
    (((⟨0, none, false, 3, 2⟩ : BsaFile).compressed = false →
      (headerFromOptions (⟨0x101, 0⟩ : BsaWriterOptionsV10X)).hasEmbed
          (v105Var id) = true →
      (⟨0, none, false, 3, 2⟩ : BsaFile).size = ([7, 8] : List Nat).length →
      ∃ p, extract (v105Var id)
          (headerFromOptions (⟨0x101, 0⟩ : BsaWriterOptionsV10X))
          (⟨0, none, false, 3, 2⟩ : BsaFile)
          ([9, 9, 9] ++ bWrite [99] ++ [7, 8] ++ [5, 5, 5, 5]) = some p ∧
        p.takeLimit = (⟨0, none, false, 3, 2⟩ : BsaFile).size ∧
        extractInput p ([9, 9, 9] ++ bWrite [99] ++ [7, 8] ++ [5, 5, 5, 5]) =
          [7, 8]) ∧
    ((⟨0, none, false, 3, 2⟩ : BsaFile).compressed = true →
      (headerFromOptions (⟨0x101, 0⟩ : BsaWriterOptionsV10X)).hasEmbed
          (v105Var id) = false →
      (⟨0, none, false, 3, 2⟩ : BsaFile).size = 4 + ([7, 8] : List Nat).length →
      ∃ p, extract (v105Var id)
          (headerFromOptions (⟨0x101, 0⟩ : BsaWriterOptionsV10X))
          (⟨0, none, false, 3, 2⟩ : BsaFile)
          ([9, 9, 9] ++ u32le 0 ++ [7, 8] ++ [5, 5, 5, 5]) = some p ∧
        p.takeLimit = (⟨0, none, false, 3, 2⟩ : BsaFile).size ∧
        extractInput p ([9, 9, 9] ++ u32le 0 ++ [7, 8] ++ [5, 5, 5, 5]) =
          [7, 8] ++ ([5, 5, 5, 5] : List Nat).take 4)) :=
  ⟨by decide, by decide,
    c4_extract_payload (v105Var id)
      (headerFromOptions (⟨0x101, 0⟩ : BsaWriterOptionsV10X))
      (⟨0, none, false, 3, 2⟩ : BsaFile) [9, 9, 9] [99] [7, 8] [5, 5, 5, 5] 0
      (by decide) (by decide)⟩

/-! ## Name-length accounting -/

theorem sum_len_add_two (dirs : List BsaDirSource) :
    (dirs.map (fun d => d.name.length + 1)).sum + dirs.length =
      (dirs.map (fun d => d.name.length + 2)).sum := by
  induction dirs with
  | nil => rfl
  | cons d t ih =>
    simp only [List.map_cons, List.sum_cons, List.length_cons]
    omega

theorem tfnlOf_flag (o : BsaWriterOptionsV10X) (dirs : List BsaDirSource)
    (hflag : o.has includesFileNames = true) :
    tfnlOf o dirs =
      ((dirs.map (fun d => d.files.map (fun f => f.name.length + 1))).flatten).sum := by
  unfold tfnlOf
  induction dirs with
  | nil => simp [poolNames]
  | cons d t ih =>
    rw [poolNames_cons, if_pos hflag]
    simp only [List.map_cons, List.flatten_cons, List.map_append, List.sum_append]
    rw [ih]
    congr 1
    rw [List.map_map]
    have he : List.map (zSize ∘ fun f => lowerStr f.name) d.files =
        List.map (fun f => f.name.length + 1) d.files :=
      List.map_congr_left
        (fun f _ => by simp [zSize, Function.comp, lowerStr_length])
    rw [he]

/-- C6: for every header the v10X writer emits, with `IncludeFileNames`
set the header's `total_file_name_length` is the sum over all file
names of `len(name)+1` (ZString size, NUL included), and with
`IncludeDirectoryNames` set `total_dir_name_length + dir_count` is the
sum over all directory names of `len(name)+2` (BZString size, length
byte and NUL included). -/
theorem c6_name_length_accounting (o : BsaWriterOptionsV10X)
    (dirs : List BsaDirSource) (s : List Nat) (H : HeaderV10X)
    (ns : FileNames) (out : List Nat) (hs : s.length = 8)
    (hnn : o.has includesFileNames = true →
      ∀ d ∈ dirs, ∀ f ∈ d.files, (0 : Nat) ∉ f.name)
    (hw : writeHeader o dirs s = some (H, ns, out)) :
    (o.has includesFileNames = true →
      H.totalFileNameLength =
        ((dirs.map (fun d => d.files.map (fun f => f.name.length + 1))).flatten).sum) ∧
    (o.has includesDirNames = true →
      H.totalDirNameLength + H.dirCount =
        (dirs.map (fun d => d.name.length + 2)).sum) := by
  rw [writeHeader_eq o dirs s hs hnn] at hw
  simp only [Option.some.injEq, Prod.mk.injEq] at hw
  obtain ⟨hH, -⟩ := hw
  subst hH
  constructor
  · intro hf
    unfold headerOf
    simp only []
    exact tfnlOf_flag o dirs hf
  · intro hd
    unfold headerOf
    simp only []
    rw [if_pos hd]
    exact sum_len_add_two dirs

/-- Witness for C6: both accounting identities on a one-directory,
one-file input under the writer's default name flags. -/
theorem c6_name_length_accounting_witness :
    (defaultOptions.has includesFileNames = true →
      (headerOf defaultOptions
          [⟨[97], [⟨[98], none, [1]⟩]⟩]).totalFileNameLength =
        ((([⟨[97], [⟨[98], none, [1]⟩]⟩] : List BsaDirSource).map
          (fun d => d.files.map (fun f => f.name.length + 1))).flatten).sum) ∧
    (defaultOptions.has includesDirNames = true →
      (headerOf defaultOptions
          [⟨[97], [⟨[98], none, [1]⟩]⟩]).totalDirNameLength +
        (headerOf defaultOptions [⟨[97], [⟨[98], none, [1]⟩]⟩]).dirCount =
        (([⟨[97], [⟨[98], none, [1]⟩]⟩] : List BsaDirSource).map
          (fun d => d.name.length + 2)).sum) :=
  c6_name_length_accounting defaultOptions [⟨[97], [⟨[98], none, [1]⟩]⟩]
    (List.replicate 8 0) _ _ _ (by simp) (by decide)
    (writeHeader_eq defaultOptions [⟨[97], [⟨[98], none, [1]⟩]⟩]
      (List.replicate 8 0) (by simp) (by decide))

/-! ## Directory-record offset consistency -/

theorem finalDRs_split_offset (V : Variant) (o : BsaWriterOptionsV10X)
    (tfnl : Nat) :
    ∀ (dirs : List BsaDirSource) (base : Nat) (l₁ l₂ : List DirRecord)
      (r : DirRecord),
      finalDRs V o tfnl dirs base = l₁ ++ r :: l₂ →
      r.offset = (base +
        ((dirs.take l₁.length).map
          (fun d => (dcrWrite (contentOf o d)).length)).sum + tfnl) % 2 ^ 32 := by
  intro dirs
  induction dirs with
  | nil =>
    intro base l₁ l₂ r h
    cases l₁ <;> simp [finalDRs] at h
  | cons d t ih =>
    intro base l₁ l₂ r h
    simp only [finalDRs] at h
    cases l₁ with
    | nil =>
      simp only [List.nil_append, List.cons.injEq] at h
      obtain ⟨h1, -⟩ := h
      rw [← h1]
      simp
    | cons a l =>
      simp only [List.cons_append, List.cons.injEq] at h
      obtain ⟨-, h2⟩ := h
      rw [ih (base + (dcrWrite (contentOf o d)).length) l l₂ r h2]
      congr 1
      simp only [List.length_cons, List.take_succ_cons, List.map_cons,
        List.sum_cons]
      omega

/-- C7: every directory record the writer backpatches carries
`offset = (position of its content block + total_file_name_length)`
as a u32: the record at index `i` (split position `l₁.length`) points
at `contentPos i + tfnlOf`, reduced mod `2^32` by the `as u32` cast. -/
theorem c7_offset_consistency (V : Variant) (o : BsaWriterOptionsV10X)
    (dirs : List BsaDirSource) (l₁ l₂ : List DirRecord) (r : DirRecord)
    (hsplit : finalDRs V o (tfnlOf o dirs) dirs (contentBase V dirs) =
      l₁ ++ r :: l₂) :
    r.offset =
      (contentPos V o dirs l₁.length + tfnlOf o dirs) % 2 ^ 32 := by
  rw [finalDRs_split_offset V o (tfnlOf o dirs) dirs (contentBase V dirs)
    l₁ l₂ r hsplit]
  unfold contentPos
  congr 1

/-- Witness for C7: the sole directory record of a one-directory
archive points at its content block plus the name-pool size. -/
theorem c7_offset_consistency_witness :
    finalDRs (v105Var id) defaultOptions
        (tfnlOf defaultOptions [⟨[97], [⟨[98], none, [1]⟩]⟩])
        [⟨[97], [⟨[98], none, [1]⟩]⟩]
        (contentBase (v105Var id) [⟨[97], [⟨[98], none, [1]⟩]⟩]) =
      [] ++ DirRecord.mk (hashV10X [97]) 1
        ((contentBase (v105Var id) [⟨[97], [⟨[98], none, [1]⟩]⟩] +
          tfnlOf defaultOptions [⟨[97], [⟨[98], none, [1]⟩]⟩]) % 2 ^ 32) :: [] ∧
    (DirRecord.mk (hashV10X [97]) 1
        ((contentBase (v105Var id) [⟨[97], [⟨[98], none, [1]⟩]⟩] +
          tfnlOf defaultOptions [⟨[97], [⟨[98], none, [1]⟩]⟩]) % 2 ^ 32)).offset =
      (contentPos (v105Var id) defaultOptions [⟨[97], [⟨[98], none, [1]⟩]⟩] 0 +
        tfnlOf defaultOptions [⟨[97], [⟨[98], none, [1]⟩]⟩]) % 2 ^ 32 :=
  ⟨rfl, c7_offset_consistency (v105Var id) defaultOptions
    [⟨[97], [⟨[98], none, [1]⟩]⟩] [] []
    (DirRecord.mk (hashV10X [97]) 1
      ((contentBase (v105Var id) [⟨[97], [⟨[98], none, [1]⟩]⟩] +
        tfnlOf defaultOptions [⟨[97], [⟨[98], none, [1]⟩]⟩]) % 2 ^ 32)) rfl⟩

/-! ## Fixed-header round trip -/

/-- C8: for every header whose fields fit their on-disk widths and
whose flag fields survive the variant's bit tables
(`archive_flags & flagMask = archive_flags`,
`file_flags & 0x1FF = file_flags`), `write_fixed` at position 8
followed by `read_fixed` returns the same header. -/
theorem c8_header_roundtrip (V : Variant) (h : HeaderV10X) (pre : List Nat)
    (hpre : pre.length = 8)
    (hoff : h.offset < 2 ^ 32) (hdc : h.dirCount < 2 ^ 32)
    (hfc : h.fileCount < 2 ^ 32) (htd : h.totalDirNameLength < 2 ^ 32)
    (htf : h.totalFileNameLength < 2 ^ 32)
    (hfl : h.archiveFlags < 2 ^ 32 ∧ h.archiveFlags &&& V.flagMask = h.archiveFlags)
    (hff : h.fileFlags < 2 ^ 16 ∧ h.fileFlags &&& 0x1FF = h.fileFlags)
    (hpad : h.padding < 2 ^ 16) :
    readFixedHeader V (writeFixedHeader h pre) = some h := by
  obtain ⟨o1, a1, d1, c1, t1, u1, g1, p1⟩ := h
  unfold writeFixedHeader writeAt readFixedHeader
  rw [List.take_of_length_le (le_of_eq hpre), List.append_assoc,
    drop_append_of_length pre _ 8 hpre, parseRawHeader_bytes,
    Option.map_some']
  simp only [headerToRaw, headerFromRaw]
  rw [Nat.mod_eq_of_lt hoff, Nat.mod_eq_of_lt hdc, Nat.mod_eq_of_lt hfc,
    Nat.mod_eq_of_lt htd, Nat.mod_eq_of_lt htf, Nat.mod_eq_of_lt hfl.1,
    Nat.mod_eq_of_lt hff.1, Nat.mod_eq_of_lt hpad, hfl.2, hff.2]

/-- Witness for C8: round trip of a small well-formed v105 header. -/
theorem c8_header_roundtrip_witness :
    readFixedHeader (v105Var id)
        (writeFixedHeader (HeaderV10X.mk 36 3 1 1 0 0 0 0)
          (List.replicate 8 0)) =
      some (HeaderV10X.mk 36 3 1 1 0 0 0 0) :=
  c8_header_roundtrip (v105Var id) (HeaderV10X.mk 36 3 1 1 0 0 0 0)
    (List.replicate 8 0) (by simp) (by decide) (by decide) (by decide)
    (by decide) (by decide) (by decide) (by decide) (by decide)

/-! ## Writer failure on over-long directory names -/

theorem pdrsOf_length (V : Variant) (dirs : List BsaDirSource) :
    ∀ pos, (pdrsOf V dirs pos).length = dirs.length := by
  induction dirs with
  | nil => intro pos; rfl
  | cons d t ih => intro pos; simp [pdrsOf, ih]

theorem wdcr_none_of_long (V : Variant) (o : BsaWriterOptionsV10X)
    (dir : BsaDirSource) (s : List Nat)
    (hflag : o.has includesDirNames = true) (hd : 254 < dir.name.length) :
    writeDirContentRecord V o dir s = none := by
  unfold writeDirContentRecord
  rw [hflag]
  simp only [if_true, bzNew, lowerStr_length]
  rw [if_neg (by omega)]
  rfl

theorem wdcr_fold_none (V : Variant) (o : BsaWriterOptionsV10X) (tfnl : Nat)
    (hflag : o.has includesDirNames = true) :
    ∀ (dirs : List BsaDirSource) (pdrs : List (Positioned DirRecord))
      (acc0 : List (Positioned DirContentRecord)) (s : List Nat),
      dirs.length ≤ pdrs.length →
      (∃ d ∈ dirs, 254 < d.name.length) →
      (dirs.zip pdrs).foldlM
        (fun acc pair =>
          match writeDirContentRecord V o pair.1 acc.2 with
          | none => none
          | some (fcr, s1) =>
            let dr := { pair.2.data with offset := (fcr.position + tfnl) % 2 ^ 32 }
            some (acc.1 ++ [fcr], writeAt s1 pair.2.position (rdrWrite V dr)))
        (acc0, s) = none := by
  intro dirs
  induction dirs with
  | nil =>
    intro pdrs acc0 s hlen hbad
    obtain ⟨d, hd, -⟩ := hbad
    simp at hd
  | cons d t ih =>
    intro pdrs acc0 s hlen hbad
    cases pdrs with
    | nil => simp at hlen
    | cons p ps =>
      rw [List.zip_cons_cons, List.foldlM_cons]
      by_cases hd : 254 < d.name.length
      · rw [wdcr_none_of_long V o d s hflag hd]
        rfl
      · cases hstep : writeDirContentRecord V o d s with
        | none => rfl
        | some pr =>
          obtain ⟨fcr, s1⟩ := pr
          have hbad' : ∃ x ∈ t, 254 < x.name.length := by
            obtain ⟨x, hx, hxl⟩ := hbad
            rcases List.mem_cons.mp hx with he | hm
            · exact absurd (he ▸ hxl) hd
            · exact ⟨x, hm, hxl⟩
          exact ih ps _ _ (Nat.le_of_succ_le_succ hlen) hbad'

/-- Counterexample for C9: a directory source with zero files is
accepted — `write_bsa` checks no such condition and returns an
archive. -/
theorem c9_counterexample :
    (writeBsa (v105Var id) defaultOptions [⟨[97], []⟩]).isSome = true := by
  decide

/-- C9 (amended): the writer does fail when a directory name is too
long for BZString encoding (over 254 bytes) while directory names are
included; it does not reject directories with zero files. -/
theorem c9_long_name_fails (V : Variant) (o : BsaWriterOptionsV10X)
    (dirs : List BsaDirSource)
    (hnn : o.has includesFileNames = true →
      ∀ d ∈ dirs, ∀ f ∈ d.files, (0 : Nat) ∉ f.name)
    (hflag : o.has includesDirNames = true)
    (hbad : ∃ d ∈ dirs, 254 < d.name.length) :
    writeBsa V o dirs = none := by
  unfold writeBsa
  dsimp only
  rw [writeHeader_eq o dirs (writeVersion V [])
    (by simp [writeVersion_length]) hnn]
  simp only []
  rw [writeDirRecords_eq]
  have hnone : writeDirContentRecords V o dirs
      (pdrsOf V dirs (writeVersion V [] ++
        rawHeaderBytes (headerToRaw (headerOf o dirs))).length)
      (tfnlOf o dirs)
      ((writeVersion V [] ++ rawHeaderBytes (headerToRaw (headerOf o dirs))) ++
        phBytes V dirs) = none := by
    unfold writeDirContentRecords
    exact wdcr_fold_none V o (tfnlOf o dirs) hflag dirs _ [] _
      (by rw [pdrsOf_length]) hbad
  rw [hnone]

/-- Witness for C9: a 255-byte directory name makes `write_bsa` fail
under the default options. -/
theorem c9_long_name_fails_witness :
    writeBsa (v105Var id) defaultOptions [⟨List.replicate 255 97, []⟩] = none :=
  c9_long_name_fails (v105Var id) defaultOptions [⟨List.replicate 255 97, []⟩]
    (by
      intro h d hd f hf
      rw [List.mem_singleton] at hd
      subst hd
      exact absurd hf (List.not_mem_nil f))
    (by decide)
    ⟨⟨List.replicate 255 97, []⟩, List.mem_singleton.mpr rfl, by
      show 254 < (List.replicate 255 97).length
      rw [List.length_replicate]
      omega⟩

end Bsa
